import Mathlib

/-!
Verification of the core data structures and protocol state machines of the
ss-rs shadowsocks relay, shallowly embedded in Lean.

Bytes are modelled as `Nat` values (kept below 256 by the operations that
matter), byte strings as `List Nat`.  The external AEAD primitives
(RustCrypto ciphers) are abstracted as function parameters; everything else
is translated from the Rust sources:
  - `src/crypto/cipher.rs`   → `SsRs.Method`
  - `src/crypto/mod.rs`      → `SsRs.Nonce.increment`
  - `src/security/mod.rs`    → `SsRs.Bloom`
  - `src/acl/ip_set.rs`      → `SsRs.Trie`, `SsRs.IpSet`
  - `src/acl/rule_set.rs`    → `SsRs.RuleSet`
  - `src/acl/mod.rs`         → `SsRs.Acl`
  - `src/context.rs`         → `SsRs.Ctx`
  - `src/socks5.rs`          → `SsRs.Socks5Addr`
  - `src/net/mod.rs`         → `SsRs.readExact` (poll_read_exact)
  - `src/net/stream.rs`      → the reader / writer state machines
-/

namespace SsRs

/-- Decidable equality for `Except`, used to evaluate the model on closed
inputs. -/
instance {ε α : Type} [DecidableEq ε] [DecidableEq α] : DecidableEq (Except ε α) :=
  fun a b =>
    match a, b with
    | .error e, .error e' =>
      match decEq e e' with
      | isTrue h => isTrue (by rw [h])
      | isFalse h => isFalse (fun hh => h (by injection hh))
    | .error _, .ok _ => isFalse (fun hh => Except.noConfusion hh)
    | .ok _, .error _ => isFalse (fun hh => Except.noConfusion hh)
    | .ok v, .ok v' =>
      match decEq v v' with
      | isTrue h => isTrue (by rw [h])
      | isFalse h => isFalse (fun hh => h (by injection hh))

/-! ## Cipher methods (src/crypto/cipher.rs) -/

/-- The three supported AEAD methods. -/
inductive Method
  | chacha20Poly1305
  | aes128Gcm
  | aes256Gcm
deriving DecidableEq

/-- `Method::key_size`. -/
def Method.keySize : Method → Nat
  | .chacha20Poly1305 => 32
  | .aes256Gcm => 32
  | .aes128Gcm => 16

/-- `Method::salt_size`. -/
def Method.saltSize : Method → Nat
  | .chacha20Poly1305 => 32
  | .aes256Gcm => 32
  | .aes128Gcm => 16

/-- `Method::iv_size`. -/
def Method.ivSize : Method → Nat := fun _ => 12

/-- `Method::tag_size`. -/
def Method.tagSize : Method → Nat := fun _ => 16

/-! ## Nonce (src/crypto/mod.rs)

`Nonce` is a byte vector; `new(len)` is all zeroes and `increment` is a
little-endian add-one with carry propagation (each byte `wrapping_add(1)`,
stopping at the first byte that did not wrap to zero). -/

/-- `Nonce::new(len)`: an all-zero byte vector. -/
def Nonce.new (len : Nat) : List Nat := List.replicate len 0

/-- `Nonce::increment`: little-endian add-one with carry. -/
def Nonce.increment : List Nat → List Nat
  | [] => []
  | b :: rest =>
    let b' := (b + 1) % 256
    if b' ≠ 0 then b' :: rest else b' :: Nonce.increment rest

/-- Little-endian base-256 value of a byte vector. -/
def nonceVal : List Nat → Nat
  | [] => 0
  | b :: rest => b + 256 * nonceVal rest

/-- All entries of a byte vector are genuine bytes. -/
def ByteVec (l : List Nat) : Prop := ∀ b ∈ l, b < 256

theorem byteVec_new (len : Nat) : ByteVec (Nonce.new len) := by
  intro b hb
  simp only [Nonce.new, List.mem_replicate] at hb
  omega

theorem nonceVal_lt : ∀ l : List Nat, ByteVec l → nonceVal l < 256 ^ l.length := by
  intro l
  induction l with
  | nil => intro; simp [nonceVal]
  | cons b rest ih =>
    intro h
    have hb : b < 256 := h b (by simp)
    have hr : nonceVal rest < 256 ^ rest.length := ih (fun x hx => h x (by simp [hx]))
    simp only [nonceVal, List.length_cons, pow_succ]
    calc b + 256 * nonceVal rest < 256 + 256 * nonceVal rest := by omega
      _ = 256 * (nonceVal rest + 1) := by ring
      _ ≤ 256 * 256 ^ rest.length := by
          exact Nat.mul_le_mul_left 256 (by omega)
      _ = 256 ^ rest.length * 256 := by ring

theorem increment_length : ∀ l : List Nat, (Nonce.increment l).length = l.length := by
  intro l
  induction l with
  | nil => rfl
  | cons b rest ih =>
    simp only [Nonce.increment]
    by_cases h : (b + 1) % 256 ≠ 0 <;> simp [h, ih]

theorem increment_byteVec : ∀ l : List Nat, ByteVec l → ByteVec (Nonce.increment l) := by
  intro l
  induction l with
  | nil => intro _; exact fun b hb => absurd hb (by simp [Nonce.increment])
  | cons b rest ih =>
    intro h x hx
    have hrest : ByteVec rest := fun y hy => h y (by simp [hy])
    simp only [Nonce.increment] at hx
    by_cases hb : (b + 1) % 256 ≠ 0 <;> simp [hb] at hx
    · rcases hx with hx | hx
      · omega
      · exact hrest x hx
    · rcases hx with hx | hx
      · omega
      · exact ih hrest x hx

/-- One increment adds one modulo `256 ^ length`. -/
theorem nonceVal_increment :
    ∀ l : List Nat, ByteVec l →
      nonceVal (Nonce.increment l) = (nonceVal l + 1) % 256 ^ l.length := by
  intro l
  induction l with
  | nil => simp [Nonce.increment, nonceVal]
  | cons b rest ih =>
    intro h
    have hb : b < 256 := h b (by simp)
    have hrest : ByteVec rest := fun y hy => h y (by simp [hy])
    have hr := nonceVal_lt rest hrest
    simp only [Nonce.increment, nonceVal, List.length_cons]
    by_cases hwrap : (b + 1) % 256 ≠ 0
    · have hb' : b + 1 < 256 := by
        rcases Nat.lt_or_ge (b + 1) 256 with h' | h'
        · exact h'
        · exfalso; have : b + 1 = 256 := by omega
          simp [this] at hwrap
      simp only [if_pos hwrap, nonceVal]
      have hmod : (b + 1) % 256 = b + 1 := Nat.mod_eq_of_lt hb'
      rw [hmod]
      have hlt : b + 256 * nonceVal rest + 1 < 256 ^ (rest.length + 1) := by
        have : nonceVal rest + 1 ≤ 256 ^ rest.length := by omega
        calc b + 256 * nonceVal rest + 1 < 256 * (nonceVal rest + 1) := by omega
          _ ≤ 256 * 256 ^ rest.length := Nat.mul_le_mul_left 256 this
          _ = 256 ^ (rest.length + 1) := by rw [pow_succ]; ring
      rw [Nat.mod_eq_of_lt hlt]
      omega
    · have hb255 : b = 255 := by
        have := Nat.mod_lt (b + 1) (show 0 < 256 by norm_num)
        omega
      push_neg at hwrap
      simp only [hb255, ne_eq, not_true_eq_false] at *
      have h256 : (255 + 1) % 256 = 0 := by norm_num
      simp only [h256, ne_eq, not_true_eq_false, if_false, ite_false, nonceVal]
      rw [ih hrest]
      have : (255 : Nat) + 256 * nonceVal rest + 1 = 256 * (nonceVal rest + 1) := by ring
      rw [this, pow_succ, mul_comm (256 ^ rest.length) 256, Nat.mul_mod_mul_left]
      simp

theorem iterate_increment_byteVec (len k : Nat) :
    ByteVec (Nonce.increment^[k] (Nonce.new len)) := by
  induction k with
  | zero => simpa using byteVec_new len
  | succ k ihk =>
    rw [Function.iterate_succ_apply']
    exact increment_byteVec _ ihk

theorem iterate_increment_length (len k : Nat) :
    (Nonce.increment^[k] (Nonce.new len)).length = len := by
  induction k with
  | zero => simp [Nonce.new]
  | succ k ihk =>
    rw [Function.iterate_succ_apply', increment_length]
    exact ihk

/-- After `k` increments from zero the nonce encodes `k` modulo `256 ^ len`. -/
theorem nonceVal_iterate (len k : Nat) :
    nonceVal (Nonce.increment^[k] (Nonce.new len)) = k % 256 ^ len := by
  induction k with
  | zero =>
    simp only [Function.iterate_zero, id]
    have : ∀ n, nonceVal (List.replicate n 0) = 0 := by
      intro n; induction n with
      | zero => rfl
      | succ n ih => simp [List.replicate, nonceVal, ih]
    simp [Nonce.new, this, Nat.zero_mod]
  | succ k ih =>
    rw [Function.iterate_succ_apply',
      nonceVal_increment _ (iterate_increment_byteVec len k),
      iterate_increment_length len k, ih, Nat.mod_add_mod]

/-! ## Replay protection (src/security/mod.rs)

The Rust `Bloom` keeps two probabilistic `BloomFilter`s.  The embedding
idealises each filter to an exact membership list (the hashing is external
to the repository); the rotation and counter logic is translated verbatim
from `Bloom::check_and_insert`:

```
if self.filters.iter().any(|x| x.contains(&element)) { return false; }
let filter = &mut self.filters[self.current];
filter.insert(&element);
self.count += 1;
if self.count == EXPECTED_NUM_ITEMS {
    self.current = (self.current + 1) % 2;
    self.filters[self.current].clear();
}
true
```

Note that `count` is a running total that is never reset. -/

/-- `EXPECTED_NUM_ITEMS`. -/
def EXPECTED_NUM_ITEMS : Nat := 1000000

/-- The dual-filter replay set, filters idealised to exact membership lists. -/
structure Bloom where
  filter0 : List (List Nat)
  filter1 : List (List Nat)
  current : Nat
  count : Nat
deriving DecidableEq

/-- `Bloom::new`. -/
def Bloom.new : Bloom := ⟨[], [], 0, 0⟩

/-- `Bloom::check_and_insert`.  The element is inserted into
`filters[current]`; the count wraps as a u32 (release-build semantics); when
the incremented count equals `EXPECTED_NUM_ITEMS`, `current` becomes
`(current + 1) % 2` and the newly active filter is cleared.  The two outer
branches spell out `filters[current]` and `(current + 1) % 2` for
`current = 0` and `current = 1` (the only values `current` takes). -/
def Bloom.check_and_insert : Bloom → List Nat → Bool × Bloom
  | ⟨f0, f1, cur, cnt⟩, element =>
    if f0.contains element || f1.contains element then
      (false, ⟨f0, f1, cur, cnt⟩)
    else if cur = 0 then
      if (cnt + 1) % 4294967296 = EXPECTED_NUM_ITEMS then
        (true, ⟨element :: f0, [], 1, (cnt + 1) % 4294967296⟩)
      else
        (true, ⟨element :: f0, f1, cur, (cnt + 1) % 4294967296⟩)
    else
      if (cnt + 1) % 4294967296 = EXPECTED_NUM_ITEMS then
        (true, ⟨[], element :: f1, 0, (cnt + 1) % 4294967296⟩)
      else
        (true, ⟨f0, element :: f1, cur, (cnt + 1) % 4294967296⟩)

/-- `ReplayProtection::check_and_insert` (the mutex serialises calls; the
sequential model threads the state). -/
def ReplayProtection.check_and_insert (b : Bloom) (element : List Nat) : Bool × Bloom :=
  Bloom.check_and_insert b element

/-! ### A run of distinct insertions

`natToLE3` produces pairwise-distinct three-byte elements; `distinctRun k`
feeds the first `k` of them to `check_and_insert` in order. -/

/-- Three little-endian bytes of a number below `2 ^ 24`. -/
def natToLE3 (n : Nat) : List Nat := [n % 256, n / 256 % 256, n / 65536 % 256]

theorem natToLE3_inj {a b : Nat} (ha : a < 16777216) (hb : b < 16777216)
    (h : natToLE3 a = natToLE3 b) : a = b := by
  simp only [natToLE3, List.cons.injEq, and_true] at h
  omega

/-- The replay-set state after the first `k` distinct elements. -/
def distinctRun : Nat → Bloom
  | 0 => Bloom.new
  | k + 1 => (Bloom.check_and_insert (distinctRun k) (natToLE3 k)).2

/-- Invariant characterising `distinctRun k` for `k ≤ 2·10⁶`. -/
def RunInv (k : Nat) (b : Bloom) : Prop :=
  b.count = k ∧
  b.current = (if k < 1000000 then 0 else 1) ∧
  (∀ j < 16777216, (natToLE3 j ∈ b.filter0 ↔ (j < k ∧ j < 1000000))) ∧
  (∀ j < 16777216, (natToLE3 j ∈ b.filter1 ↔ (1000000 ≤ j ∧ j < k)))

theorem mem_cons_distinct {j k : Nat} (hj : j < 16777216) (hk : k < 16777216)
    (l : List (List Nat)) :
    natToLE3 j ∈ natToLE3 k :: l ↔ (j = k ∨ natToLE3 j ∈ l) := by
  simp only [List.mem_cons]
  constructor
  · rintro (h | h)
    · exact Or.inl (natToLE3_inj hj hk h)
    · exact Or.inr h
  · rintro (h | h)
    · exact Or.inl (by rw [h])
    · exact Or.inr h

theorem distinctRun_inv : ∀ k, k ≤ 2000000 → RunInv k (distinctRun k) := by
  intro k
  induction k with
  | zero =>
    intro _
    refine ⟨rfl, rfl, ?_, ?_⟩ <;>
      · intro j _
        simp [distinctRun, Bloom.new, EXPECTED_NUM_ITEMS]
  | succ k ih =>
    intro hk
    obtain ⟨hcount, hcur, hf0, hf1⟩ := ih (by omega)
    have hk24 : k < 16777216 := by omega
    rcases hB : distinctRun k with ⟨f0, f1, cur, cnt⟩
    rw [hB] at hcount hcur hf0 hf1
    simp only at hcount hcur hf0 hf1
    have hgoal : distinctRun (k + 1)
        = (Bloom.check_and_insert ⟨f0, f1, cur, cnt⟩ (natToLE3 k)).2 := by
      simp only [distinctRun]
      rw [hB]
    rw [hgoal]
    have hnot0 : natToLE3 k ∉ f0 := fun hmem => by have := (hf0 k hk24).mp hmem; omega
    have hnot1 : natToLE3 k ∉ f1 := fun hmem => by have := (hf1 k hk24).mp hmem; omega
    have hfresh : (f0.contains (natToLE3 k) || f1.contains (natToLE3 k)) = false := by
      simp [hnot0, hnot1]
    have hmod : (cnt + 1) % 4294967296 = k + 1 := by
      rw [hcount]; exact Nat.mod_eq_of_lt (by omega)
    by_cases hsmall : k < 1000000
    · -- inserting into filter0
      have hcur0 : cur = 0 := by rw [hcur, if_pos hsmall]
      by_cases hswap : k + 1 = 1000000
      · -- the single rotation: current becomes 1 and the new active is cleared
        simp only [Bloom.check_and_insert, hfresh, Bool.false_eq_true, if_false,
          hcur0, reduceIte, hmod, EXPECTED_NUM_ITEMS, if_pos hswap]
        refine ⟨rfl, by rw [if_neg (by omega)], ?_, ?_⟩
        · intro j hj
          rw [mem_cons_distinct hj hk24, hf0 j hj]
          omega
        · intro j hj
          simp only [List.not_mem_nil, false_iff]
          omega
      · simp only [Bloom.check_and_insert, hfresh, Bool.false_eq_true, if_false,
          hcur0, reduceIte, hmod, EXPECTED_NUM_ITEMS, if_neg hswap]
        refine ⟨rfl, by rw [if_pos (by omega)], ?_, ?_⟩
        · intro j hj
          rw [mem_cons_distinct hj hk24, hf0 j hj]
          omega
        · intro j hj
          rw [hf1 j hj]
          omega
    · -- inserting into filter1 (after the single rotation)
      have hcur1 : cur = 1 := by rw [hcur, if_neg hsmall]
      have hswap : ¬ (k + 1 = 1000000) := by omega
      simp only [Bloom.check_and_insert, hfresh, Bool.false_eq_true, if_false,
        hcur1, if_neg (by omega : ¬ (1:Nat) = 0), hmod, EXPECTED_NUM_ITEMS, if_neg hswap]
      refine ⟨rfl, by rw [if_neg (by omega)], ?_, ?_⟩
      · intro j hj
        rw [hf0 j hj]
        omega
      · intro j hj
        rw [mem_cons_distinct hj hk24, hf1 j hj]
        omega

/-! ## IP trie (src/acl/ip_set.rs)

`TrieNode` has two optional children and an `is_complete` flag.
`insert_bits` walks the given bits (creating nodes) and marks the final node
complete.  `contains` walks the address bits; it returns `false` on a missing
child, `true` as soon as the node it descended to is complete, and `true`
when it runs out of bits. -/

/-- A trie node: left child, right child, `is_complete`. -/
inductive Trie where
  | mk : Option Trie → Option Trie → Bool → Trie

/-- `TrieNode::new`. -/
def Trie.newNode : Trie := .mk none none false

/-- The `is_complete` flag. -/
def Trie.isComplete : Trie → Bool
  | .mk _ _ c => c

/-- The child selected by one bit (`true` is right, as in the loops). -/
def Trie.child : Trie → Bool → Option Trie
  | .mk l r _, b => if b then r else l

/-- `Trie::insert_bits`. -/
def Trie.insertBits : Trie → List Bool → Trie
  | .mk l r _, [] => .mk l r true
  | .mk l r c, true :: bs => .mk l (some (Trie.insertBits (r.getD Trie.newNode) bs)) c
  | .mk l r c, false :: bs => .mk (some (Trie.insertBits (l.getD Trie.newNode) bs)) r c

/-- `Trie::contains`, on an already bit-decomposed input. -/
def Trie.containsBits : Trie → List Bool → Bool
  | _, [] => true
  | t, b :: bs =>
    match t.child b with
    | none => false
    | some ch => if ch.isComplete then true else ch.containsBits bs

/-- The node reached by descending along the given bits, when the whole path
exists (an observer used to state the trie's laws). -/
def Trie.pathNode : Trie → List Bool → Option Trie
  | t, [] => some t
  | t, b :: bs =>
    match t.child b with
    | none => none
    | some ch => ch.pathNode bs

/-- The eight bits of a byte, most significant first (`view_bits::<Msb0>`). -/
def byteBits (b : Nat) : List Bool := (List.range 8).map (fun i => b.testBit (7 - i))

/-- The MSB-first bit view of a byte string. -/
def octetsBits (os : List Nat) : List Bool := (os.map byteBits).flatten

/-- An IP address as its octets (4 for v4, 16 for v6). -/
inductive IpAddr where
  | v4 (octets : List Nat)
  | v6 (octets : List Nat)
deriving DecidableEq

/-- The bit view of an address. -/
def IpAddr.bits : IpAddr → List Bool
  | .v4 os => octetsBits os
  | .v6 os => octetsBits os

/-- A CIDR network (src/net/cidr.rs): an address and a mask. -/
structure Cidr where
  addr : IpAddr
  mask : Nat

/-- `IpSet`: one trie per family. -/
structure IpSet where
  ipv4 : Trie
  ipv6 : Trie

/-- `IpSet::new`. -/
def IpSet.new : IpSet := ⟨Trie.newNode, Trie.newNode⟩

/-- `IpSet::insert`: the first `mask` bits of the address go into the
family's trie. -/
def IpSet.insert (s : IpSet) (c : Cidr) : IpSet :=
  match c.addr with
  | .v4 os => { s with ipv4 := s.ipv4.insertBits ((octetsBits os).take c.mask) }
  | .v6 os => { s with ipv6 := s.ipv6.insertBits ((octetsBits os).take c.mask) }

/-- `IpSet::contains`. -/
def IpSet.contains (s : IpSet) (a : IpAddr) : Bool :=
  match a with
  | .v4 os => s.ipv4.containsBits (octetsBits os)
  | .v6 os => s.ipv6.containsBits (octetsBits os)

/-- Folding a list of CIDRs into a set. -/
def IpSet.insertAll (s : IpSet) (cs : List Cidr) : IpSet := cs.foldl IpSet.insert s

/-- A well-formed CIDR: family-correct octet count and mask bound
(`Cidr::from_str` guarantees both). -/
def Cidr.wf : Cidr → Prop
  | ⟨.v4 os, mask⟩ => os.length = 4 ∧ mask ≤ 32
  | ⟨.v6 os, mask⟩ => os.length = 16 ∧ mask ≤ 128

theorem octetsBits_length (os : List Nat) : (octetsBits os).length = 8 * os.length := by
  induction os with
  | nil => rfl
  | cons b rest ih =>
    simp [octetsBits, byteBits] at *
    omega

theorem containsBits_cons (t : Trie) (b : Bool) (bs : List Bool) :
    t.containsBits (b :: bs)
      = (match t.child b with
         | none => false
         | some ch => if ch.isComplete then true else ch.containsBits bs) := by
  rcases t with ⟨l, r, c⟩
  rfl

theorem pathNode_cons (t : Trie) (b : Bool) (bs : List Bool) :
    t.pathNode (b :: bs)
      = (match t.child b with
         | none => none
         | some ch => ch.pathNode bs) := by
  rcases t with ⟨l, r, c⟩
  rfl

theorem child_insertBits_same (t : Trie) (b : Bool) (p : List Bool) :
    (t.insertBits (b :: p)).child b
      = some (Trie.insertBits ((t.child b).getD Trie.newNode) p) := by
  rcases t with ⟨l, r, c⟩
  cases b <;> rfl

theorem child_insertBits_diff (t : Trie) (b b' : Bool) (p : List Bool) (h : b' ≠ b) :
    (t.insertBits (b :: p)).child b' = t.child b' := by
  rcases t with ⟨l, r, c⟩
  cases b <;> cases b' <;> simp_all [Trie.insertBits, Trie.child]

theorem isComplete_insertBits_nil (t : Trie) : (t.insertBits []).isComplete = true := by
  rcases t with ⟨l, r, c⟩
  rfl

theorem child_insertBits_nil (t : Trie) (b : Bool) :
    (t.insertBits []).child b = t.child b := by
  rcases t with ⟨l, r, c⟩
  cases b <;> rfl

theorem containsBits_cons_some {t ch : Trie} {b : Bool} (bs : List Bool)
    (h : t.child b = some ch) :
    t.containsBits (b :: bs) = if ch.isComplete then true else ch.containsBits bs := by
  rw [containsBits_cons, h]

theorem containsBits_cons_none {t : Trie} {b : Bool} (bs : List Bool)
    (h : t.child b = none) : t.containsBits (b :: bs) = false := by
  rw [containsBits_cons, h]

theorem pathNode_cons_some {t ch : Trie} {b : Bool} (bs : List Bool)
    (h : t.child b = some ch) : t.pathNode (b :: bs) = ch.pathNode bs := by
  rw [pathNode_cons, h]

theorem pathNode_cons_none {t : Trie} {b : Bool} (bs : List Bool)
    (h : t.child b = none) : t.pathNode (b :: bs) = none := by
  rw [pathNode_cons, h]

/-- Inserting a non-empty bit string makes every extension of it a member. -/
theorem containsBits_insertBits (t : Trie) (p rest : List Bool) (hp : p ≠ []) :
    (t.insertBits p).containsBits (p ++ rest) = true := by
  induction p generalizing t with
  | nil => exact absurd rfl hp
  | cons b p' ih =>
    rw [List.cons_append, containsBits_cons_some (p' ++ rest) (child_insertBits_same t b p')]
    cases p' with
    | nil =>
      rw [isComplete_insertBits_nil]
      simp
    | cons b' p'' =>
      rw [ih ((t.child b).getD Trie.newNode) (by simp)]
      simp

/-- Some non-empty prefix of `bits` reaches a complete node of `t`. -/
def Trie.reachesComplete (t : Trie) (bits : List Bool) : Prop :=
  ∃ k, 1 ≤ k ∧ k ≤ bits.length ∧
    ∃ n, t.pathNode (bits.take k) = some n ∧ n.isComplete = true

/-- What `contains` computes, on an arbitrary trie: a complete node on a
non-empty proper prefix, or the full path existing. -/
theorem containsBits_iff (t : Trie) (bits : List Bool) :
    t.containsBits bits = true ↔
      (t.reachesComplete bits ∨ (t.pathNode bits).isSome) := by
  induction bits generalizing t with
  | nil =>
    show Trie.containsBits t [] = true ↔ _
    simp only [Trie.containsBits, Trie.pathNode, Option.isSome_some, Trie.reachesComplete]
    simp
  | cons b bs ih =>
    rcases hch : t.child b with - | ch
    · rw [containsBits_cons_none bs hch, pathNode_cons_none bs hch]
      simp only [Bool.false_eq_true, Option.isSome_none, or_false, false_iff,
        Trie.reachesComplete]
      rintro ⟨k, hk1, hk2, n, hpath, hcomp⟩
      rcases k with - | k
      · omega
      · rw [List.take_succ_cons, pathNode_cons_none _ hch] at hpath
        exact absurd hpath (by simp)
    · rw [containsBits_cons_some bs hch, pathNode_cons_some bs hch]
      by_cases hcomp : ch.isComplete = true
      · simp only [hcomp, if_true, true_iff]
        left
        refine ⟨1, le_refl 1, by simp, ch, ?_, hcomp⟩
        rw [List.take_succ_cons, List.take_zero, pathNode_cons_some [] hch]
        rfl
      · rw [Bool.not_eq_true] at hcomp
        rw [hcomp]
        simp only [Bool.false_eq_true, if_false, ih ch]
        constructor
        · rintro (⟨k, hk1, hk2, n, hpath, hc⟩ | hfull)
          · left
            refine ⟨k + 1, by omega, by simp; omega, n, ?_, hc⟩
            rw [List.take_succ_cons, pathNode_cons_some _ hch]
            exact hpath
          · right; exact hfull
        · rintro (⟨k, hk1, hk2, n, hpath, hc⟩ | hfull)
          · rcases k with - | k
            · omega
            · rw [List.take_succ_cons, pathNode_cons_some _ hch] at hpath
              rcases k with - | k
              · simp only [List.take_zero, Trie.pathNode, Option.some.injEq] at hpath
                rw [hpath, hc] at hcomp
                exact absurd hcomp (by simp)
              · left
                refine ⟨k + 1, by omega, by simp at hk2 ⊢; omega, n, hpath, hc⟩
          · right; exact hfull

/-- Every node at depth `L` of the trie is complete. -/
def Trie.completeAtDepth (L : Nat) (t : Trie) : Prop :=
  ∀ q n, q.length = L → t.pathNode q = some n → n.isComplete = true

theorem child_newNode (b : Bool) : Trie.newNode.child b = none := by
  cases b <;> rfl

theorem completeAtDepth_newNode (L : Nat) (hL : 1 ≤ L) :
    Trie.completeAtDepth L Trie.newNode := by
  intro q n hlen hpath
  rcases q with - | ⟨b, q'⟩
  · simp at hlen; omega
  · rw [pathNode_cons_none _ (child_newNode b)] at hpath
    exact absurd hpath (by simp)

theorem completeAtDepth_insertBits (p : List Bool) :
    ∀ (t : Trie) (L : Nat), p.length ≤ L → 1 ≤ L →
      Trie.completeAtDepth L t → Trie.completeAtDepth L (t.insertBits p) := by
  induction p with
  | nil =>
    intro t L _ hL hinv q n hlen hpath
    rcases q with - | ⟨b, q'⟩
    · simp at hlen; omega
    · apply hinv (b :: q') n hlen
      rw [pathNode_cons, child_insertBits_nil] at hpath
      rw [pathNode_cons]
      exact hpath
  | cons b p' ih =>
    intro t L hlenp hL hinv q n hlen hpath
    rcases q with - | ⟨b', q'⟩
    · simp at hlen; omega
    · by_cases hbb : b' = b
      · subst hbb
        rw [pathNode_cons_some q' (child_insertBits_same t b' p')] at hpath
        rcases Nat.lt_or_ge 1 L with hL2 | hL1
        · -- L ≥ 2: recurse one level down
          have hchild : Trie.completeAtDepth (L - 1) ((t.child b').getD Trie.newNode) := by
            rcases hc : t.child b' with - | ch
            · simpa [hc] using completeAtDepth_newNode (L - 1) (by omega)
            · simp only [hc, Option.getD_some]
              intro q'' n'' hlen'' hpath''
              apply hinv (b' :: q'') n'' (by simp [hlen'']; omega)
              rw [pathNode_cons_some _ hc]
              exact hpath''
          have := ih ((t.child b').getD Trie.newNode) (L - 1)
            (by simp at hlenp; omega) (by omega) hchild
          exact this q' n (by simp at hlen; omega) hpath
        · -- L = 1: q' is empty and p' is empty, the inserted node is complete
          have hq' : q' = [] := by
            simp at hlen
            exact List.length_eq_zero.mp (by omega)
          have hp' : p' = [] := by
            simp at hlenp
            exact List.length_eq_zero.mp (by omega)
          subst hq' hp'
          simp only [Trie.pathNode, Option.some.injEq] at hpath
          rw [← hpath]
          exact isComplete_insertBits_nil _
      · apply hinv (b' :: q') n hlen
        rw [pathNode_cons, child_insertBits_diff t b b' p' hbb] at hpath
        rw [pathNode_cons]
        exact hpath

/-- The family-correct octet count of an address value. -/
def IpAddr.wf : IpAddr → Prop
  | .v4 os => os.length = 4
  | .v6 os => os.length = 16

/-- Two addresses of the same family. -/
def IpAddr.sameFamily : IpAddr → IpAddr → Prop
  | .v4 _, .v4 _ => True
  | .v6 _, .v6 _ => True
  | _, _ => False

/-- The trie an address is looked up in. -/
def IpSet.trieFor (s : IpSet) : IpAddr → Trie
  | .v4 _ => s.ipv4
  | .v6 _ => s.ipv6

theorem contains_eq_trieFor (s : IpSet) (x : IpAddr) :
    s.contains x = (s.trieFor x).containsBits x.bits := by
  cases x <;> rfl

theorem insertAll_completeAtDepth (cs : List Cidr) :
    ∀ (s : IpSet), (∀ c ∈ cs, c.wf) →
      Trie.completeAtDepth 32 s.ipv4 → Trie.completeAtDepth 128 s.ipv6 →
      Trie.completeAtDepth 32 (s.insertAll cs).ipv4 ∧
        Trie.completeAtDepth 128 (s.insertAll cs).ipv6 := by
  induction cs with
  | nil => exact fun s _ h4 h6 => ⟨h4, h6⟩
  | cons c cs ih =>
    intro s hwf h4 h6
    rcases c with ⟨addr, mask⟩
    have hcwf := hwf ⟨addr, mask⟩ (by simp)
    have hstep : IpSet.insertAll s (⟨addr, mask⟩ :: cs)
        = IpSet.insertAll (s.insert ⟨addr, mask⟩) cs := rfl
    rw [hstep]
    apply ih _ (fun c' hc' => hwf c' (by simp [hc'])) <;>
      rcases addr with os | os <;>
      simp only [IpSet.insert, Cidr.wf] at hcwf ⊢
    · obtain ⟨hos, hmask⟩ := hcwf
      apply completeAtDepth_insertBits _ _ 32 _ (by omega) h4
      have := octetsBits_length os
      simp only [List.length_take]
      omega
    · exact h4
    · exact h6
    · obtain ⟨hos, hmask⟩ := hcwf
      apply completeAtDepth_insertBits _ _ 128 _ (by omega) h6
      have := octetsBits_length os
      simp only [List.length_take]
      omega

/-- The prefix law for a mask of at least one bit. -/
theorem insert_contains_of_same_bits (s : IpSet) (c : Cidr) (x : IpAddr)
    (hcwf : c.wf) (hxwf : x.wf) (hmask : 1 ≤ c.mask)
    (hfam : c.addr.sameFamily x)
    (hbits : x.bits.take c.mask = c.addr.bits.take c.mask) :
    (s.insert c).contains x = true := by
  rcases c with ⟨addr, mask⟩
  rcases addr with os | os <;> rcases x with xs | xs <;>
    simp only [IpAddr.sameFamily] at hfam <;>
    simp only [Cidr.wf] at hcwf <;>
    simp only [IpAddr.wf] at hxwf <;>
    simp only [IpAddr.bits] at hbits <;>
    dsimp only at hbits hmask ⊢
  · obtain ⟨hos, hm⟩ := hcwf
    have hplen : ((octetsBits os).take mask).length = mask := by
      rw [List.length_take, octetsBits_length, hos]
      omega
    have hsplit : octetsBits xs
        = (octetsBits os).take mask ++ (octetsBits xs).drop mask := by
      rw [← hbits]
      exact (List.take_append_drop mask (octetsBits xs)).symm
    rw [contains_eq_trieFor]
    simp only [IpSet.insert, IpSet.trieFor, IpAddr.bits]
    rw [hsplit]
    apply containsBits_insertBits
    intro hnil
    rw [hnil] at hplen
    simp at hplen
    omega
  · obtain ⟨hos, hm⟩ := hcwf
    have hplen : ((octetsBits os).take mask).length = mask := by
      rw [List.length_take, octetsBits_length, hos]
      omega
    have hsplit : octetsBits xs
        = (octetsBits os).take mask ++ (octetsBits xs).drop mask := by
      rw [← hbits]
      exact (List.take_append_drop mask (octetsBits xs)).symm
    rw [contains_eq_trieFor]
    simp only [IpSet.insert, IpSet.trieFor, IpAddr.bits]
    rw [hsplit]
    apply containsBits_insertBits
    intro hnil
    rw [hnil] at hplen
    simp at hplen
    omega

/-- Membership in a built set is exactly a complete node on a non-empty
prefix of the address bits. -/
theorem insertAll_contains_iff (cs : List Cidr) (x : IpAddr)
    (hwf : ∀ c ∈ cs, c.wf) (hxwf : x.wf) :
    (IpSet.insertAll IpSet.new cs).contains x = true ↔
      ((IpSet.insertAll IpSet.new cs).trieFor x).reachesComplete x.bits := by
  obtain ⟨h4, h6⟩ := insertAll_completeAtDepth cs IpSet.new hwf
    (completeAtDepth_newNode 32 (by omega)) (completeAtDepth_newNode 128 (by omega))
  rw [contains_eq_trieFor, containsBits_iff]
  constructor
  · rintro (h | hfull)
    · exact h
    · rcases x with os | os
      · rcases hn : ((IpSet.insertAll IpSet.new cs).trieFor (.v4 os)).pathNode
            (IpAddr.bits (.v4 os)) with - | n
        · rw [hn] at hfull; exact absurd hfull (by simp)
        · have hblen : (IpAddr.bits (IpAddr.v4 os)).length = 32 := by
            simp only [IpAddr.bits]; rw [octetsBits_length, hxwf]
          refine ⟨32, by omega, by omega, n, ?_, ?_⟩
          · rw [← hblen, List.take_length]
            exact hn
          · exact h4 _ n hblen hn
      · rcases hn : ((IpSet.insertAll IpSet.new cs).trieFor (.v6 os)).pathNode
            (IpAddr.bits (.v6 os)) with - | n
        · rw [hn] at hfull; exact absurd hfull (by simp)
        · have hblen : (IpAddr.bits (IpAddr.v6 os)).length = 128 := by
            simp only [IpAddr.bits]; rw [octetsBits_length, hxwf]
          refine ⟨128, by omega, by omega, n, ?_, ?_⟩
          · rw [← hblen, List.take_length]
            exact hn
          · exact h6 _ n hblen hn
  · exact fun h => Or.inl h

/-! ## Rule set, ACL and context (src/acl/rule_set.rs, src/acl/mod.rs,
src/context.rs)

A regex is external to the repository; a rule is abstracted as its match
function `String → Bool`.  `ip.to_string()` is likewise abstracted as a
formatting function `ipStr` carried as a parameter. -/

/-- `RuleSet`: an ordered list of rule match functions. -/
structure RuleSet where
  rules : List (String → Bool)

/-- `RuleSet::new`. -/
def RuleSet.new : RuleSet := ⟨[]⟩

/-- `RuleSet::insert`. -/
def RuleSet.insert (rs : RuleSet) (r : String → Bool) : RuleSet := ⟨rs.rules ++ [r]⟩

/-- `RuleSet::contains`: some rule matches. -/
def RuleSet.contains (rs : RuleSet) (s : String) : Bool := rs.rules.any (fun r => r s)

/-- `Mode`. -/
inductive Mode
  | whiteList
  | blackList
deriving DecidableEq

/-- `Acl`. -/
structure Acl where
  bypass_list : IpSet
  proxy_list : IpSet
  outbound_block_list : IpSet
  bypass_rules : RuleSet
  proxy_rules : RuleSet
  outbound_block_rules : RuleSet
  mode : Mode

/-- `Acl::new`. -/
def Acl.new : Acl :=
  ⟨IpSet.new, IpSet.new, IpSet.new, RuleSet.new, RuleSet.new, RuleSet.new, .whiteList⟩

/-- `Acl::is_bypass`.  The Rust early returns are unrolled into nested
conditionals; the final `self.mode == Mode::BlackList` appears once per
path. -/
def Acl.is_bypass (ipStr : IpAddr → String) (acl : Acl) (ip : IpAddr)
    (host : Option String) : Bool :=
  match host with
  | some h =>
    if h ≠ ipStr ip then
      if acl.bypass_rules.contains h then true
      else if acl.proxy_rules.contains h then false
      else if acl.bypass_list.contains ip then true
      else if acl.proxy_list.contains ip then false
      else decide (acl.mode = .blackList)
    else
      if acl.bypass_list.contains ip then true
      else if acl.proxy_list.contains ip then false
      else decide (acl.mode = .blackList)
  | none =>
    if acl.bypass_list.contains ip then true
    else if acl.proxy_list.contains ip then false
    else decide (acl.mode = .blackList)

/-- `Acl::is_block_outbound`. -/
def Acl.is_block_outbound (ipStr : IpAddr → String) (acl : Acl) (ip : IpAddr)
    (host : Option String) : Bool :=
  if acl.outbound_block_list.contains ip then true
  else if acl.outbound_block_rules.contains (ipStr ip) then true
  else
    match host with
    | some h =>
      if h ≠ ipStr ip then
        if acl.outbound_block_rules.contains h then true
        else decide (acl.mode = .blackList)
      else decide (acl.mode = .blackList)
    | none => decide (acl.mode = .blackList)

/-- Modelled from the spec's decision order for `bypass(ip, host)` (§4.10),
to be compared against `Acl.is_bypass`: (1) a host differing from the
formatted ip consults bypass then proxy rules; (2) bypass list; (3) proxy
list; (4) the mode default. -/
def specBypass (ipStr : IpAddr → String) (acl : Acl) (ip : IpAddr)
    (host : Option String) : Bool :=
  let hostDiff : Bool :=
    match host with
    | some h => decide (h ≠ ipStr ip)
    | none => false
  let ruleHit : RuleSet → Bool := fun rs =>
    match host with
    | some h => rs.contains h
    | none => false
  if hostDiff && ruleHit acl.bypass_rules then true
  else if hostDiff && ruleHit acl.proxy_rules then false
  else if acl.bypass_list.contains ip then true
  else if acl.proxy_list.contains ip then false
  else
    match acl.mode with
    | .whiteList => false
    | .blackList => true

/-- `Ctx` (src/context.rs): the process-wide replay set and optional ACL. -/
structure Ctx where
  replay_protection : Bloom
  acl : Option Acl

/-- `Ctx::new`. -/
def Ctx.new : Ctx := ⟨Bloom.new, none⟩

/-- `Ctx::check_replay` (state threaded explicitly). -/
def Ctx.check_replay (c : Ctx) (salt : List Nat) : Bool × Ctx :=
  let r := ReplayProtection.check_and_insert c.replay_protection salt
  (r.1, { c with replay_protection := r.2 })

/-- `Ctx::set_acl`. -/
def Ctx.set_acl (c : Ctx) (acl : Acl) : Ctx := { c with acl := some acl }

/-- `Ctx::is_bypass`. -/
def Ctx.is_bypass (ipStr : IpAddr → String) (c : Ctx) (ip : IpAddr)
    (host : Option String) : Bool :=
  match c.acl with
  | some acl => acl.is_bypass ipStr ip host
  | none => false

/-- `Ctx::is_block_outbound`. -/
def Ctx.is_block_outbound (ipStr : IpAddr → String) (c : Ctx) (ip : IpAddr)
    (host : Option String) : Bool :=
  match c.acl with
  | some acl => acl.is_block_outbound ipStr ip host
  | none => false

/-! ## SOCKS5 address codec (src/socks5.rs)

`Socks5Addr::construct` reads an ATYP byte and then a fixed-size buffer
(variable-size for a domain name) from the stream; `get_raw_parts`
serialises.  The stream is modelled as a byte list; `read_exact` of a fixed
size becomes a pattern match on that many list cells (short input is the
`Eof` error), the variable-size read uses `readN`.  Whether a byte string is
valid UTF-8 (`String::from_utf8`) is external; it is carried as a predicate
parameter `isUtf8`. -/

/-- `read_exact` into an `n`-byte buffer from an in-memory stream. -/
def readN (n : Nat) (input : List Nat) : Option (List Nat × List Nat) :=
  if n ≤ input.length then some (input.take n, input.drop n) else none

/-- Big-endian 16-bit decode (`u16::from_be_bytes`). -/
def u16be (hi lo : Nat) : Nat := 256 * hi + lo

/-- Big-endian bytes of a 16-bit value (`u16::to_be_bytes`). -/
def beBytes2 (n : Nat) : List Nat := [n / 256 % 256, n % 256]

/-- A SOCKS5 address: 4 octets, 8 ipv6 segments, or a domain name held as
its UTF-8 bytes — each with a port. -/
inductive Socks5Addr where
  | ipv4 (o1 o2 o3 o4 : Nat) (port : Nat)
  | ipv6 (s1 s2 s3 s4 s5 s6 s7 s8 : Nat) (port : Nat)
  | domainName (name : List Nat) (port : Nat)
deriving DecidableEq

/-- Errors of the codec (`socks5::Error` and I/O Eof). -/
inductive SocksErr where
  | eof
  | domainNameBytes
  | invalidAtyp (x : Nat)
deriving DecidableEq

/-- `Socks5Addr::construct`. -/
def Socks5Addr.construct (isUtf8 : List Nat → Bool) :
    List Nat → Except SocksErr (Socks5Addr × List Nat)
  | [] => .error .eof
  | atyp :: rest =>
    if atyp = 1 then
      match rest with
      | b0 :: b1 :: b2 :: b3 :: p0 :: p1 :: rest =>
        .ok (.ipv4 b0 b1 b2 b3 (u16be p0 p1), rest)
      | _ => .error .eof
    else if atyp = 3 then
      match rest with
      | [] => .error .eof
      | len :: rest =>
        match readN (len + 2) rest with
        | none => .error .eof
        | some (buf, rest) =>
          let nameBytes := buf.take len
          if isUtf8 nameBytes then
            .ok (.domainName nameBytes (u16be (buf.getD len 0) (buf.getD (len + 1) 0)), rest)
          else .error .domainNameBytes
    else if atyp = 4 then
      match rest with
      | b0 :: b1 :: b2 :: b3 :: b4 :: b5 :: b6 :: b7 :: b8 :: b9 :: b10 :: b11 ::
          b12 :: b13 :: b14 :: b15 :: p0 :: p1 :: rest =>
        .ok (.ipv6 (u16be b0 b1) (u16be b2 b3) (u16be b4 b5) (u16be b6 b7)
          (u16be b8 b9) (u16be b10 b11) (u16be b12 b13) (u16be b14 b15)
          (u16be p0 p1), rest)
      | _ => .error .eof
    else .error (.invalidAtyp atyp)

/-- `Socks5Addr::get_raw_parts` (the domain length is pushed
`as u8`, hence modulo 256). -/
def Socks5Addr.get_raw_parts : Socks5Addr → List Nat
  | .ipv4 o1 o2 o3 o4 port => 1 :: [o1, o2, o3, o4] ++ beBytes2 port
  | .ipv6 s1 s2 s3 s4 s5 s6 s7 s8 port =>
    4 :: (beBytes2 s1 ++ beBytes2 s2 ++ beBytes2 s3 ++ beBytes2 s4 ++
      beBytes2 s5 ++ beBytes2 s6 ++ beBytes2 s7 ++ beBytes2 s8) ++ beBytes2 port
  | .domainName name port => 3 :: (name.length % 256) :: name ++ beBytes2 port

/-- A value the Rust types can hold: octets are bytes, segments and ports
are 16-bit, a domain is at most 255 valid-UTF-8 bytes.  The Rust types
guarantee all of these except the domain length bound. -/
def Socks5Addr.wf (isUtf8 : List Nat → Bool) : Socks5Addr → Prop
  | .ipv4 o1 o2 o3 o4 port =>
    o1 < 256 ∧ o2 < 256 ∧ o3 < 256 ∧ o4 < 256 ∧ port < 65536
  | .ipv6 s1 s2 s3 s4 s5 s6 s7 s8 port =>
    s1 < 65536 ∧ s2 < 65536 ∧ s3 < 65536 ∧ s4 < 65536 ∧ s5 < 65536 ∧
      s6 < 65536 ∧ s7 < 65536 ∧ s8 < 65536 ∧ port < 65536
  | .domainName name port =>
    name.length ≤ 255 ∧ isUtf8 name = true ∧ port < 65536

theorem u16be_beBytes2 {n : Nat} (h : n < 65536) :
    u16be (n / 256 % 256) (n % 256) = n := by
  simp only [u16be]
  omega

/-- The serialise-then-parse round trip on well-formed addresses. -/
theorem construct_get_raw_parts (isUtf8 : List Nat → Bool) (a : Socks5Addr)
    (rest : List Nat) (hwf : a.wf isUtf8) :
    Socks5Addr.construct isUtf8 (a.get_raw_parts ++ rest) = .ok (a, rest) := by
  rcases a with ⟨o1, o2, o3, o4, port⟩ | ⟨s1, s2, s3, s4, s5, s6, s7, s8, port⟩ |
    ⟨name, port⟩
  · obtain ⟨h1, h2, h3, h4, hp⟩ := hwf
    simp only [Socks5Addr.get_raw_parts, beBytes2, List.cons_append, List.nil_append,
      Socks5Addr.construct, if_pos rfl]
    rw [u16be_beBytes2 hp]
    simp
  · obtain ⟨h1, h2, h3, h4, h5, h6, h7, h8, hp⟩ := hwf
    simp only [Socks5Addr.get_raw_parts, beBytes2, List.cons_append, List.nil_append,
      List.append_assoc]
    simp only [Socks5Addr.construct, List.cons_append, List.nil_append,
      if_neg (by omega : ¬ (4:Nat) = 1), if_neg (by omega : ¬ (4:Nat) = 3), if_pos rfl]
    rw [u16be_beBytes2 h1, u16be_beBytes2 h2, u16be_beBytes2 h3, u16be_beBytes2 h4,
      u16be_beBytes2 h5, u16be_beBytes2 h6, u16be_beBytes2 h7, u16be_beBytes2 h8,
      u16be_beBytes2 hp]
    simp
  · obtain ⟨hlen, hutf, hp⟩ := hwf
    have hmod : name.length % 256 = name.length := Nat.mod_eq_of_lt (by omega)
    have hbuflen : (name ++ [port / 256 % 256, port % 256]).length = name.length + 2 := by
      simp
    have hreadN :
        readN (name.length + 2) ((name ++ [port / 256 % 256, port % 256]) ++ rest)
          = some (name ++ [port / 256 % 256, port % 256], rest) := by
      rw [readN, if_pos (by simp), List.take_left' hbuflen, List.drop_left' hbuflen]
    have hassoc : name ++ ([port / 256 % 256, port % 256] ++ rest)
        = (name ++ [port / 256 % 256, port % 256]) ++ rest :=
      (List.append_assoc name _ rest).symm
    simp only [Socks5Addr.get_raw_parts, beBytes2, List.cons_append,
      Socks5Addr.construct, if_neg (by omega : ¬ (3:Nat) = 1), if_pos rfl, hmod,
      hassoc, hreadN]
    rw [List.take_left, if_pos hutf]
    have hg0 : (name ++ [port / 256 % 256, port % 256]).getD name.length 0
        = port / 256 % 256 := by
      rw [List.getD_append_right _ _ _ _ (le_refl name.length)]
      simp
    have hg1 : (name ++ [port / 256 % 256, port % 256]).getD (name.length + 1) 0
        = port % 256 := by
      rw [List.getD_append_right _ _ _ _ (by omega)]
      have h1 : name.length + 1 - name.length = 1 := by omega
      rw [h1]
      rfl
    rw [hg0, hg1, u16be_beBytes2 hp]
    simp

/-! ## Transport and poll_read_exact (src/net/mod.rs)

The inner byte transport is a list of chunks: each `poll_read` on it yields
up to the requested capacity from the head chunk; an exhausted list (or an
empty chunk) is EOF, a zero-byte read.  `poll_read_exact` loops, filling its
owned buffer one poll at a time, and reports `UnexpectedEof` on any
zero-byte read before the buffer is full — including a read of zero bytes
into an empty buffer. -/

/-- `MAXIMUM_PAYLOAD_SIZE` (src/net/mod.rs). -/
def MAXIMUM_PAYLOAD_SIZE : Nat := 0x3FFF

/-- An ordered byte transport, as the chunks successive reads deliver. -/
abbrev Transport := List (List Nat)

/-- One `poll_read` against the transport with the given free capacity. -/
def readSome : Transport → Nat → (List Nat × Transport)
  | [], _ => ([], [])
  | c :: rest, cap =>
    if cap < c.length then (c.take cap, c.drop cap :: rest) else (c, rest)

/-- `poll_read_exact`: read exactly `n` bytes, or fail as the Rust code does
on a zero-byte read (`UnexpectedEof`, modelled as `none`). -/
def readExact (n : Nat) (t : Transport) : Option (List Nat × Transport) :=
  if hn : n = 0 then some ([], t)
  else
    if hg : (readSome t n).1 = [] then none
    else
      match readExact (n - (readSome t n).1.length) (readSome t n).2 with
      | none => none
      | some (more, t2) => some ((readSome t n).1 ++ more, t2)
termination_by n
decreasing_by
  have : 0 < (readSome t n).1.length := List.length_pos.mpr hg
  omega

/-- No chunk of the transport is empty (an empty chunk would be an EOF
followed by more data, which a real stream cannot produce). -/
def chunksOK (t : Transport) : Prop := ∀ c ∈ t, c ≠ []

/-! ## The encrypted stream (src/net/stream.rs)

The AEAD itself is external (RustCrypto): it is abstracted as a pair of
functions keyed by the connection salt — `enc salt nonce plaintext` and
`dec salt nonce ciphertext` — standing for the cipher that
`hkdf_sha1(key, salt)` derives.  A cipher being materialised
(`enc_cipher`/`dec_cipher` being `Some`) is modelled by remembering the
salt it was derived from.  Encryption by these AEADs cannot fail on
in-memory buffers, so `enc` is total; decryption fails on a bad tag, so
`dec` is partial. -/

/-- The abstract AEAD pair for a fixed `(method, master_key)`. -/
structure Aead where
  enc : List Nat → List Nat → List Nat → List Nat
  dec : List Nat → List Nat → List Nat → Option (List Nat)

/-- What HKDF-derived session ciphers satisfy: decryption inverts
encryption, and a ciphertext is the plaintext plus the tag. -/
def AeadGood (m : Method) (A : Aead) (salt : List Nat) : Prop :=
  (∀ nonce p, A.dec salt nonce (A.enc salt nonce p) = some p) ∧
  (∀ nonce p, (A.enc salt nonce p).length = p.length + m.tagSize)

/-- Errors of the stream (`stream::Error` plus the I/O `UnexpectedEof`). -/
inductive SsErr where
  | encryption
  | decryption
  | duplicateSalt
  | unexpectedEof
deriving DecidableEq

/-- `ReadState`. -/
inductive RSt where
  | readSalt
  | readLength
  | readPayload (n : Nat)
  | readPayloadOut
deriving DecidableEq

/-- `WriteState`. -/
inductive WSt where
  | writeSalt
  | writeLength
  | writePayload
  | writePayloadOut
deriving DecidableEq

/-- `TcpStream`, the shadowsocks stream state.  `encSalt`/`decSalt` stand
for `enc_cipher`/`dec_cipher` (a cipher is determined by its salt);
`read_buf` is folded into `readExact`. -/
structure TcpStream where
  cipherMethod : Method
  encSalt : Option (List Nat)
  decSalt : Option (List Nat)
  encNonce : List Nat
  decNonce : List Nat
  incomingSalt : Option (List Nat)
  readState : RSt
  writeState : WSt
  inPayload : List Nat
  outPayload : List Nat
deriving DecidableEq

/-- `TcpStream::new`. -/
def TcpStream.new (m : Method) : TcpStream :=
  ⟨m, none, none, Nonce.new m.ivSize, Nonce.new m.ivSize, none,
    .readSalt, .writeSalt, [], []⟩

/-- `TcpStream::encrypt`: encrypt with the current nonce, then increment it.
(The Rust `Err` branch maps an encryption failure these AEADs cannot
produce on in-memory data; `enc` is total, so the increment always runs,
exactly as in the source on success.) -/
def TcpStream.encryptOp (A : Aead) (s : TcpStream) (plaintext : List Nat) :
    List Nat × TcpStream :=
  (A.enc (s.encSalt.getD []) s.encNonce plaintext,
    { s with encNonce := Nonce.increment s.encNonce })

/-- `TcpStream::decrypt`: on success increment the nonce; on failure leave
it unchanged and fail with `Decryption`. -/
def TcpStream.decryptOp (A : Aead) (s : TcpStream) (ciphertext : List Nat) :
    Except SsErr (List Nat) × TcpStream :=
  match A.dec (s.decSalt.getD []) s.decNonce ciphertext with
  | some data => (.ok data, { s with decNonce := Nonce.increment s.decNonce })
  | none => (.error .decryption, s)

/-- `poll_read_salt`: with no decrypt cipher yet, read the peer's salt,
remember it for replay checking and derive the cipher from it. -/
def TcpStream.pollReadSalt (s : TcpStream) (t : Transport) :
    Except SsErr (TcpStream × Transport) :=
  match s.decSalt with
  | some _ => .ok (s, t)
  | none =>
    match readExact s.cipherMethod.saltSize t with
    | none => .error .unexpectedEof
    | some (salt, t1) =>
      .ok ({ s with incomingSalt := some salt, decSalt := some salt }, t1)

/-- `poll_read_length`: read and decrypt one length record, mask with
`0x3FFF`, and — while the incoming salt is still buffered, i.e. on the
first length record — consult the replay set `cr`, failing with
`DuplicateSalt` when it reports a duplicate.  The first component lists the
salts consulted during the call. -/
def TcpStream.pollReadLength (A : Aead) (cr : List Nat → Bool)
    (s : TcpStream) (t : Transport) :
    List (List Nat) × Except SsErr (Nat × TcpStream × Transport) :=
  match readExact (2 + s.cipherMethod.tagSize) t with
  | none => ([], .error .unexpectedEof)
  | some (buf, t1) =>
    match TcpStream.decryptOp A s buf with
    | (.error e, _) => ([], .error e)
    | (.ok len, s1) =>
      let payloadLen := Nat.land (u16be (len.getD 0 0) (len.getD 1 0)) MAXIMUM_PAYLOAD_SIZE
      match s1.incomingSalt with
      | some salt =>
        if cr salt then ([salt], .ok (payloadLen, { s1 with incomingSalt := none }, t1))
        else ([salt], .error .duplicateSalt)
      | none => ([], .ok (payloadLen, s1, t1))

/-- `poll_read_payload`: read and decrypt one payload record. -/
def TcpStream.pollReadPayload (A : Aead) (s : TcpStream) (t : Transport)
    (payloadLen : Nat) : Except SsErr (List Nat × TcpStream × Transport) :=
  match readExact (payloadLen + s.cipherMethod.tagSize) t with
  | none => .error .unexpectedEof
  | some (buf, t1) =>
    match TcpStream.decryptOp A s buf with
    | (.error e, _) => .error e
    | (.ok payload, s1) => .ok (payload, s1, t1)

/-- The `ReadPayloadOut` arm of the loop: drain the decrypted payload into
the caller's buffer of capacity `cap`; keep the remainder, if any. -/
def TcpStream.readPayloadOut (s : TcpStream) (cap : Nat) : List Nat × TcpStream :=
  if s.inPayload.length ≤ cap then
    (s.inPayload, { s with readState := .readLength })
  else
    (s.inPayload.take cap,
      { s with inPayload := s.inPayload.drop cap, readState := .readPayloadOut })

/-- The loop of `poll_read_decrypt` from the `ReadPayload` state on. -/
def TcpStream.runFromPayload (A : Aead) (cap : Nat) (s : TcpStream)
    (t : Transport) (n : Nat) :
    List (List Nat) × Except SsErr (List Nat × TcpStream × Transport) :=
  match TcpStream.pollReadPayload A s t n with
  | .error e => ([], .error e)
  | .ok (payload, s1, t1) =>
    match TcpStream.readPayloadOut
      { s1 with inPayload := payload, readState := .readPayloadOut } cap with
    | (out, s2) => ([], .ok (out, s2, t1))

/-- The loop of `poll_read_decrypt` from the `ReadLength` state on. -/
def TcpStream.runFromLength (A : Aead) (cr : List Nat → Bool) (cap : Nat)
    (s : TcpStream) (t : Transport) :
    List (List Nat) × Except SsErr (List Nat × TcpStream × Transport) :=
  match TcpStream.pollReadLength A cr s t with
  | (cs, .error e) => (cs, .error e)
  | (cs, .ok (n, s1, t1)) =>
    match TcpStream.runFromPayload A cap { s1 with readState := .readPayload n } t1 n with
    | (cs2, r) => (cs ++ cs2, r)

/-- `poll_read_decrypt`: the reader loop, entered at the current
`read_state`; every arm except `ReadPayloadOut` falls through to the next,
and `ReadPayloadOut` returns to the caller. -/
def TcpStream.pollReadDecrypt (A : Aead) (cr : List Nat → Bool) (cap : Nat)
    (s : TcpStream) (t : Transport) :
    List (List Nat) × Except SsErr (List Nat × TcpStream × Transport) :=
  match s.readState with
  | .readSalt =>
    match TcpStream.pollReadSalt s t with
    | .error e => ([], .error e)
    | .ok (s1, t1) =>
      TcpStream.runFromLength A cr cap { s1 with readState := .readLength } t1
  | .readLength => TcpStream.runFromLength A cr cap s t
  | .readPayload n => TcpStream.runFromPayload A cap s t n
  | .readPayloadOut =>
    match TcpStream.readPayloadOut s cap with
    | (out, s1) => ([], .ok (out, s1, t))

/-- `poll_read_decrypt_helper`: every `UnexpectedEof` from the machinery is
reported as a successful zero-byte read (end of stream).  The Rust code
keeps its partially filled `read_buf`; returning the pre-call state is
observationally the same, as the transport is at EOF either way. -/
def TcpStream.pollReadHelper (A : Aead) (cr : List Nat → Bool) (cap : Nat)
    (s : TcpStream) (t : Transport) :
    List (List Nat) × Except SsErr (List Nat × TcpStream × Transport) :=
  match TcpStream.pollReadDecrypt A cr cap s t with
  | (cs, .error .unexpectedEof) => (cs, .ok ([], s, t))
  | r => r

/-- A run of `poll_read` calls with the given caller buffer capacities,
stopping at a zero-byte read (EOF) or an error: the outputs delivered, the
salts consulted, and the error if one was surfaced. -/
structure ReadRun where
  outs : List (List Nat)
  consults : List (List Nat)
  err : Option SsErr
deriving DecidableEq

/-- Drive the reader with one `poll_read` per capacity in `caps`. -/
def TcpStream.readAllTrace (A : Aead) (cr : List Nat → Bool) :
    List Nat → TcpStream → Transport → ReadRun
  | [], _, _ => ⟨[], [], none⟩
  | cap :: caps, s, t =>
    match TcpStream.pollReadHelper A cr cap s t with
    | (cs, .error e) => ⟨[], cs, some e⟩
    | (cs, .ok (out, s1, t1)) =>
      if out.isEmpty then ⟨[], cs, none⟩
      else
        match TcpStream.readAllTrace A cr caps s1 t1 with
        | r => ⟨out :: r.outs, cs ++ r.consults, r.err⟩

/-- `poll_write_salt`: on the first write, pick the salt (the random
sampling is abstracted: the chosen salt is the parameter `saltW`), derive
the encrypt cipher from it and append the plaintext salt to the outgoing
buffer. -/
def TcpStream.pollWriteSalt (saltW : List Nat) (s : TcpStream) : TcpStream :=
  match s.encSalt with
  | some _ => s
  | none => { s with encSalt := some saltW, outPayload := s.outPayload ++ saltW }

/-- `let length = usize::min(payload.len(), MAXIMUM_PAYLOAD_SIZE)`. -/
def recordLen (payload : List Nat) : Nat := min payload.length MAXIMUM_PAYLOAD_SIZE

/-- `poll_write_length`: encrypt the two big-endian length bytes. -/
def TcpStream.pollWriteLength (A : Aead) (s : TcpStream) (payload : List Nat) :
    TcpStream :=
  match TcpStream.encryptOp A s (beBytes2 (recordLen payload)) with
  | (buf, s1) => { s1 with outPayload := s1.outPayload ++ buf }

/-- `poll_write_payload`: encrypt the first `recordLen payload` caller
bytes. -/
def TcpStream.pollWritePayload (A : Aead) (s : TcpStream) (payload : List Nat) :
    TcpStream :=
  match TcpStream.encryptOp A s (payload.take (recordLen payload)) with
  | (buf, s1) => { s1 with outPayload := s1.outPayload ++ buf }

/-- The writer loop from `WriteLength` on: length record, payload record,
then `WritePayloadOut` flushes the whole outgoing buffer to the transport
(the bytes are the second component), resets to `WriteLength` and reports
`recordLen payload` bytes consumed. -/
def TcpStream.writeFromLength (A : Aead) (s : TcpStream) (payload : List Nat) :
    Nat × List Nat × TcpStream :=
  let s1 := { TcpStream.pollWriteLength A s payload with writeState := .writePayload }
  let s2 := { TcpStream.pollWritePayload A s1 payload with writeState := .writePayloadOut }
  (recordLen payload, s2.outPayload,
    { s2 with outPayload := [], writeState := .writeLength })

/-- `poll_write_encrypt`: the writer loop entered at the current
`write_state`. -/
def TcpStream.pollWriteEncrypt (A : Aead) (saltW : List Nat) (s : TcpStream)
    (payload : List Nat) : Nat × List Nat × TcpStream :=
  match s.writeState with
  | .writeSalt =>
    TcpStream.writeFromLength A
      { TcpStream.pollWriteSalt saltW s with writeState := .writeLength } payload
  | .writeLength => TcpStream.writeFromLength A s payload
  | .writePayload =>
    let s2 := { TcpStream.pollWritePayload A s payload with writeState := .writePayloadOut }
    (recordLen payload, s2.outPayload,
      { s2 with outPayload := [], writeState := .writeLength })
  | .writePayloadOut =>
    (recordLen payload, s.outPayload,
      { s with outPayload := [], writeState := .writeLength })

theorem pollWriteEncrypt_consumed (A : Aead) (saltW : List Nat) (s : TcpStream)
    (payload : List Nat) :
    (TcpStream.pollWriteEncrypt A saltW s payload).1 = recordLen payload := by
  rcases s with ⟨m, es, ds, en, dn, is, rs, ws, ip, op⟩
  cases ws <;> rfl

/-- A caller's `write_all` loop: call `poll_write` until the buffer is
consumed, concatenating the bytes that reach the transport. -/
def TcpStream.writeAll (A : Aead) (saltW : List Nat) (s : TcpStream)
    (p : List Nat) : List Nat × TcpStream :=
  if hp : p = [] then ([], s)
  else
    let r := TcpStream.pollWriteEncrypt A saltW s p
    let r2 := TcpStream.writeAll A saltW r.2.2 (p.drop r.1)
    (r.2.1 ++ r2.1, r2.2)
termination_by p.length
decreasing_by
  have hc := pollWriteEncrypt_consumed A saltW s p
  have hlen : 0 < p.length := List.length_pos.mpr hp
  simp only [hc, recordLen, MAXIMUM_PAYLOAD_SIZE, List.length_drop]
  omega

/-- A sequence of messages sent with `write_all` each. -/
def TcpStream.writeList (A : Aead) (saltW : List Nat) (s : TcpStream) :
    List (List Nat) → List Nat × TcpStream
  | [] => ([], s)
  | p :: ps =>
    let r := TcpStream.writeAll A saltW s p
    let r2 := TcpStream.writeList A saltW r.2 ps
    (r.1 ++ r2.1, r2.2)

/-- The wire bytes of a record sequence: for each record, an encrypted
2-byte big-endian length then the encrypted payload, nonces advancing by
one per AEAD operation. -/
def encodeRecords (A : Aead) (salt : List Nat) : List Nat → List (List Nat) → List Nat
  | _, [] => []
  | nonce, q :: qs =>
    A.enc salt nonce (beBytes2 q.length) ++
      A.enc salt (Nonce.increment nonce) q ++
      encodeRecords A salt (Nonce.increment (Nonce.increment nonce)) qs

/-- Splitting a payload into records of at most `MAXIMUM_PAYLOAD_SIZE`. -/
def chunkify (p : List Nat) : List (List Nat) :=
  if hp : p = [] then []
  else p.take MAXIMUM_PAYLOAD_SIZE :: chunkify (p.drop MAXIMUM_PAYLOAD_SIZE)
termination_by p.length
decreasing_by
  have hlen : 0 < p.length := List.length_pos.mpr hp
  simp only [List.length_drop, MAXIMUM_PAYLOAD_SIZE]
  omega

/-- The records a message list becomes. -/
def recordsOf (ps : List (List Nat)) : List (List Nat) := (ps.map chunkify).flatten

/-! ### Properties of the transport primitives -/

theorem readSome_spec (t : Transport) (cap : Nat) (ht : chunksOK t) :
    (readSome t cap).1 ++ (readSome t cap).2.flatten = t.flatten ∧
    chunksOK (readSome t cap).2 ∧
    (readSome t cap).1.length ≤ cap ∧
    (t ≠ [] → 1 ≤ cap → (readSome t cap).1 ≠ []) := by
  rcases t with - | ⟨c, rest⟩
  · simp [readSome, chunksOK]
  · have hc : c ≠ [] := ht c (by simp)
    simp only [readSome]
    by_cases hlt : cap < c.length
    · simp only [if_pos hlt]
      refine ⟨?_, ?_, ?_, ?_⟩
      · simp only [List.flatten_cons, ← List.append_assoc, List.take_append_drop]
      · intro x hx
        rcases List.mem_cons.mp hx with hx | hx
        · rw [hx]
          intro hdrop
          have := List.drop_eq_nil_iff.mp hdrop
          omega
        · exact ht x (by simp [hx])
      · simp only [List.length_take]
        omega
      · intro _ hcap
        intro htake
        have hl := congrArg List.length htake
        have hclen : 0 < c.length := List.length_pos.mpr hc
        simp only [List.length_take, List.length_nil] at hl
        omega
    · simp only [if_neg hlt]
      refine ⟨by simp, fun x hx => ht x (by simp [hx]), by omega, fun _ _ => hc⟩

theorem readSome_length_le_flatten (t : Transport) (cap : Nat) (ht : chunksOK t) :
    (readSome t cap).1.length ≤ t.flatten.length := by
  have h := (readSome_spec t cap ht).1
  have := congrArg List.length h
  simp only [List.length_append] at this
  omega

theorem readSome_take (t : Transport) (cap : Nat) (ht : chunksOK t) :
    (readSome t cap).1 = t.flatten.take (readSome t cap).1.length := by
  have h := (readSome_spec t cap ht).1
  rw [← h, List.take_left]

/-- `poll_read_exact` returns exactly the first `n` bytes of the stream when
they are available, leaving the rest. -/
theorem readExact_spec (n : Nat) : ∀ (t : Transport), chunksOK t →
    n ≤ t.flatten.length →
    ∃ t', readExact n t = some (t.flatten.take n, t') ∧ chunksOK t' ∧
      t'.flatten = t.flatten.drop n := by
  induction n using Nat.strong_induction_on with
  | _ n ih =>
    intro t ht hn
    rcases Nat.eq_zero_or_pos n with hn0 | hpos
    · subst hn0
      exact ⟨t, by rw [readExact]; simp, ht, by simp⟩
    · have hne : n ≠ 0 := by omega
      have htne : t ≠ [] := by
        intro hteq
        subst hteq
        simp at hn
        omega
      obtain ⟨hflat, hok, hle, hgot⟩ := readSome_spec t n ht
      have hgotne := hgot htne (by omega)
      have hgotlen : 0 < (readSome t n).1.length := List.length_pos.mpr hgotne
      have hgotflat := readSome_length_le_flatten t n ht
      have hrec : n - (readSome t n).1.length ≤ (readSome t n).2.flatten.length := by
        have := congrArg List.length hflat
        simp only [List.length_append] at this
        omega
      obtain ⟨t2, heq, hok2, hflat2⟩ :=
        ih (n - (readSome t n).1.length) (by omega) (readSome t n).2 hok hrec
      refine ⟨t2, ?_, hok2, ?_⟩
      · rw [readExact]
        simp only [dif_neg hne, dif_neg hgotne, heq]
        have htake : t.flatten.take n
            = (readSome t n).1 ++ (readSome t n).2.flatten.take (n - (readSome t n).1.length) := by
          rw [← hflat, List.take_append_eq_append_take]
          congr 1
          exact List.take_of_length_le (by omega)
        rw [htake]
      · rw [hflat2, ← hflat]
        rw [List.drop_append_eq_append_drop]
        have h1 : (readSome t n).1.drop n = [] := by
          apply List.drop_eq_nil_iff.mpr
          omega
        rw [h1, List.nil_append]

/-- Reaching the end of the stream before `n` bytes is the `UnexpectedEof`
failure. -/
theorem readExact_eof (n : Nat) : ∀ (t : Transport), chunksOK t →
    t.flatten.length < n → readExact n t = none := by
  induction n using Nat.strong_induction_on with
  | _ n ih =>
    intro t ht hn
    have hne : n ≠ 0 := by omega
    rcases heq : t with - | ⟨c, rest⟩
    · rw [readExact]
      simp only [dif_neg hne]
      have : (readSome ([] : Transport) n).1 = [] := rfl
      simp [this]
    · rw [← heq]
      have htne : t ≠ [] := by rw [heq]; simp
      obtain ⟨hflat, hok, hle, hgot⟩ := readSome_spec t n ht
      have hgotne := hgot htne (by omega)
      have hgotlen : 0 < (readSome t n).1.length := List.length_pos.mpr hgotne
      have hgotflat := readSome_length_le_flatten t n ht
      have hflatlen : (readSome t n).2.flatten.length
          = t.flatten.length - (readSome t n).1.length := by
        have := congrArg List.length hflat
        simp only [List.length_append] at this
        omega
      have hrec := ih (n - (readSome t n).1.length) (by omega) (readSome t n).2 hok
        (by omega)
      rw [readExact]
      simp only [dif_neg hne, dif_neg hgotne, hrec]

theorem readExact_nil (n : Nat) (hn : n ≠ 0) : readExact n ([] : Transport) = none := by
  rw [readExact]
  simp only [dif_neg hn]
  have : (readSome ([] : Transport) n).1 = [] := rfl
  simp [this]

theorem flatten_nil_of_chunksOK (t : Transport) (ht : chunksOK t)
    (hf : t.flatten = []) : t = [] := by
  rcases t with - | ⟨c, rest⟩
  · rfl
  · exfalso
    simp only [List.flatten_cons, List.append_eq_nil] at hf
    exact ht c (by simp) hf.1

/-! ### Writer characterisation -/

/-- Records all between one and `MAXIMUM_PAYLOAD_SIZE` bytes long. -/
def GoodRecs (qs : List (List Nat)) : Prop :=
  ∀ q ∈ qs, q ≠ [] ∧ q.length ≤ MAXIMUM_PAYLOAD_SIZE

theorem chunkify_nil : chunkify [] = [] := by
  rw [chunkify]
  simp

theorem chunkify_cons (p : List Nat) (hp : p ≠ []) :
    chunkify p = p.take MAXIMUM_PAYLOAD_SIZE :: chunkify (p.drop MAXIMUM_PAYLOAD_SIZE) := by
  rw [chunkify]
  simp [hp]

theorem chunkify_flatten : ∀ (n : Nat) (p : List Nat), p.length ≤ n →
    (chunkify p).flatten = p := by
  intro n
  induction n using Nat.strong_induction_on with
  | _ n ih =>
    intro p hlen
    by_cases hp : p = []
    · subst hp
      rw [chunkify_nil]
      rfl
    · have hpos : 0 < p.length := List.length_pos.mpr hp
      have hM : 0 < MAXIMUM_PAYLOAD_SIZE := by norm_num [MAXIMUM_PAYLOAD_SIZE]
      rw [chunkify_cons p hp]
      simp only [List.flatten_cons]
      rw [ih (n - 1) (by omega) (p.drop MAXIMUM_PAYLOAD_SIZE) (by simp; omega)]
      exact List.take_append_drop _ p

theorem chunkify_good : ∀ (n : Nat) (p : List Nat), p.length ≤ n →
    GoodRecs (chunkify p) := by
  intro n
  induction n using Nat.strong_induction_on with
  | _ n ih =>
    intro p hlen
    by_cases hp : p = []
    · subst hp
      rw [chunkify_nil]
      intro q hq
      exact absurd hq (by simp)
    · have hpos : 0 < p.length := List.length_pos.mpr hp
      have hM : 0 < MAXIMUM_PAYLOAD_SIZE := by norm_num [MAXIMUM_PAYLOAD_SIZE]
      rw [chunkify_cons p hp]
      intro q hq
      rcases List.mem_cons.mp hq with hq | hq
      · subst hq
        constructor
        · intro htake
          have := congrArg List.length htake
          simp only [List.length_take, List.length_nil] at this
          omega
        · simp only [List.length_take]
          omega
      · exact ih (n - 1) (by omega) (p.drop MAXIMUM_PAYLOAD_SIZE) (by simp; omega) q hq

theorem encodeRecords_append (A : Aead) (w : List Nat) :
    ∀ (qs1 qs2 : List (List Nat)) (nonce : List Nat),
      encodeRecords A w nonce (qs1 ++ qs2)
        = encodeRecords A w nonce qs1
          ++ encodeRecords A w (Nonce.increment^[2 * qs1.length] nonce) qs2 := by
  intro qs1
  induction qs1 with
  | nil => intro qs2 nonce; simp [encodeRecords]
  | cons q qs ih =>
    intro qs2 nonce
    have h1 : encodeRecords A w nonce ((q :: qs) ++ qs2)
        = A.enc w nonce (beBytes2 q.length) ++
            (A.enc w (Nonce.increment nonce) q ++
              encodeRecords A w (Nonce.increment (Nonce.increment nonce)) (qs ++ qs2)) := by
      simp [encodeRecords]
    have h2 : encodeRecords A w nonce (q :: qs)
        = A.enc w nonce (beBytes2 q.length) ++
            (A.enc w (Nonce.increment nonce) q ++
              encodeRecords A w (Nonce.increment (Nonce.increment nonce)) qs) := by
      simp [encodeRecords]
    rw [h1, h2, ih]
    have h3 : 2 * ((q :: qs).length) = 2 * qs.length + 2 := by simp; ring
    rw [h3, Function.iterate_add_apply]
    have h4 : Nonce.increment^[2] nonce = Nonce.increment (Nonce.increment nonce) := rfl
    rw [h4]
    simp [List.append_assoc]

/-- One writer call from a state whose cipher is materialised: the whole
pending buffer plus one length record and one payload record are flushed. -/
theorem writeFromLength_spec (A : Aead) (w : List Nat) (m : Method)
    (ds : Option (List Nat)) (en dn : List Nat) (isalt : Option (List Nat))
    (rs : RSt) (ws : WSt) (ip op p : List Nat) :
    TcpStream.writeFromLength A ⟨m, some w, ds, en, dn, isalt, rs, ws, ip, op⟩ p
      = (recordLen p,
         (op ++ A.enc w en (beBytes2 (recordLen p)))
           ++ A.enc w (Nonce.increment en) (p.take (recordLen p)),
         ⟨m, some w, ds, Nonce.increment (Nonce.increment en), dn, isalt, rs,
           .writeLength, ip, []⟩) := rfl

/-- `write_all` from a salted state emits exactly the encoded records of the
payload's chunks, advancing the nonce twice per record. -/
theorem writeAll_salted (A : Aead) (w : List Nat) (m : Method)
    (ds : Option (List Nat)) (dn : List Nat) (isalt : Option (List Nat))
    (rs : RSt) (ip : List Nat) :
    ∀ (n : Nat) (p en : List Nat), p.length ≤ n →
      TcpStream.writeAll A w ⟨m, some w, ds, en, dn, isalt, rs, .writeLength, ip, []⟩ p
        = (encodeRecords A w en (chunkify p),
           ⟨m, some w, ds, Nonce.increment^[2 * (chunkify p).length] en, dn, isalt,
             rs, .writeLength, ip, []⟩) := by
  intro n
  induction n using Nat.strong_induction_on with
  | _ n ih =>
    intro p en hlen
    by_cases hp : p = []
    · subst hp
      rw [TcpStream.writeAll]
      simp [chunkify_nil, encodeRecords]
    · have hpos : 0 < p.length := List.length_pos.mpr hp
      have hM : 0 < MAXIMUM_PAYLOAD_SIZE := by norm_num [MAXIMUM_PAYLOAD_SIZE]
      have hrl : 0 < recordLen p := by
        simp only [recordLen]
        omega
      rw [TcpStream.writeAll]
      simp only [dif_neg hp]
      have hstep : TcpStream.pollWriteEncrypt A w
          ⟨m, some w, ds, en, dn, isalt, rs, .writeLength, ip, []⟩ p
          = TcpStream.writeFromLength A
              ⟨m, some w, ds, en, dn, isalt, rs, .writeLength, ip, []⟩ p := rfl
      rw [hstep, writeFromLength_spec]
      simp only [List.nil_append]
      rw [ih (n - 1) (by omega) (p.drop (recordLen p)) _ (by simp; omega)]
      have hdrop : p.drop (recordLen p) = p.drop MAXIMUM_PAYLOAD_SIZE := by
        rcases Nat.le_total p.length MAXIMUM_PAYLOAD_SIZE with h | h
        · rw [List.drop_eq_nil_iff.mpr (by simp only [recordLen]; omega),
            List.drop_eq_nil_iff.mpr (by omega)]
        · congr 1
          simp only [recordLen]
          omega
      have htakeR : p.take (recordLen p) = p.take MAXIMUM_PAYLOAD_SIZE := by
        rw [List.take_eq_take]
        simp only [recordLen]
        omega
      have hlentake : (p.take MAXIMUM_PAYLOAD_SIZE).length = recordLen p := by
        simp only [List.length_take, recordLen]
        omega
      rw [chunkify_cons p hp]
      simp only [encodeRecords, List.length_cons, hdrop, htakeR, hlentake]
      have h2 : 2 * ((chunkify (p.drop MAXIMUM_PAYLOAD_SIZE)).length + 1)
          = 2 * (chunkify (p.drop MAXIMUM_PAYLOAD_SIZE)).length + 2 := by ring
      rw [h2, Function.iterate_add_apply]
      have h3 : Nonce.increment^[2] en = Nonce.increment (Nonce.increment en) := rfl
      rw [h3]

/-- The first `write_all` on a fresh stream also emits the salt. -/
theorem writeAll_fresh (A : Aead) (w : List Nat) (m : Method)
    (ds : Option (List Nat)) (dn : List Nat) (isalt : Option (List Nat))
    (rs : RSt) (ip : List Nat) (p en : List Nat) (hp : p ≠ []) :
    TcpStream.writeAll A w ⟨m, none, ds, en, dn, isalt, rs, .writeSalt, ip, []⟩ p
      = (w ++ encodeRecords A w en (chunkify p),
         ⟨m, some w, ds, Nonce.increment^[2 * (chunkify p).length] en, dn, isalt,
           rs, .writeLength, ip, []⟩) := by
  have hpos : 0 < p.length := List.length_pos.mpr hp
  have hM : 0 < MAXIMUM_PAYLOAD_SIZE := by norm_num [MAXIMUM_PAYLOAD_SIZE]
  have hrl : 0 < recordLen p := by
    simp only [recordLen]
    omega
  rw [TcpStream.writeAll]
  simp only [dif_neg hp]
  have hstep : TcpStream.pollWriteEncrypt A w
      ⟨m, none, ds, en, dn, isalt, rs, .writeSalt, ip, []⟩ p
      = TcpStream.writeFromLength A
          ⟨m, some w, ds, en, dn, isalt, rs, .writeLength, ip, w⟩ p := rfl
  rw [hstep, writeFromLength_spec]
  rw [writeAll_salted A w m ds dn isalt rs ip (p.drop (recordLen p)).length _ _ (le_refl _)]
  have hdrop : p.drop (recordLen p) = p.drop MAXIMUM_PAYLOAD_SIZE := by
    rcases Nat.le_total p.length MAXIMUM_PAYLOAD_SIZE with h | h
    · rw [List.drop_eq_nil_iff.mpr (by simp only [recordLen]; omega),
        List.drop_eq_nil_iff.mpr (by omega)]
    · congr 1
      simp only [recordLen]
      omega
  have htakeR : p.take (recordLen p) = p.take MAXIMUM_PAYLOAD_SIZE := by
    rw [List.take_eq_take]
    simp only [recordLen]
    omega
  have hlentake : (p.take MAXIMUM_PAYLOAD_SIZE).length = recordLen p := by
    simp only [List.length_take, recordLen]
    omega
  rw [chunkify_cons p hp]
  simp only [encodeRecords, List.length_cons, hdrop, htakeR, hlentake]
  have h2 : 2 * ((chunkify (p.drop MAXIMUM_PAYLOAD_SIZE)).length + 1)
      = 2 * (chunkify (p.drop MAXIMUM_PAYLOAD_SIZE)).length + 2 := by ring
  rw [h2, Function.iterate_add_apply]
  have h3 : Nonce.increment^[2] en = Nonce.increment (Nonce.increment en) := rfl
  rw [h3]
  simp [List.append_assoc]

theorem recordsOf_nil : recordsOf [] = [] := rfl

theorem recordsOf_cons (p : List Nat) (ps : List (List Nat)) :
    recordsOf (p :: ps) = chunkify p ++ recordsOf ps := by
  simp [recordsOf]

theorem recordsOf_flatten (ps : List (List Nat)) :
    (recordsOf ps).flatten = ps.flatten := by
  induction ps with
  | nil => rfl
  | cons p ps ih =>
    rw [recordsOf_cons]
    simp only [List.flatten_append, List.flatten_cons, ih]
    rw [chunkify_flatten p.length p (le_refl _)]

theorem recordsOf_good (ps : List (List Nat)) : GoodRecs (recordsOf ps) := by
  induction ps with
  | nil => intro q hq; exact absurd hq (by simp [recordsOf_nil])
  | cons p ps ih =>
    rw [recordsOf_cons]
    intro q hq
    rcases List.mem_append.mp hq with hq | hq
    · exact chunkify_good p.length p (le_refl _) q hq
    · exact ih q hq

theorem goodRecs_flatten_nil {qs : List (List Nat)} (hg : GoodRecs qs)
    (hf : qs.flatten = []) : qs = [] := by
  rcases qs with - | ⟨q, rest⟩
  · rfl
  · exfalso
    simp only [List.flatten_cons, List.append_eq_nil] at hf
    exact (hg q (by simp)).1 hf.1

/-- `write_all` per message from a salted stream. -/
theorem writeList_salted (A : Aead) (w : List Nat) (m : Method)
    (ds : Option (List Nat)) (dn : List Nat) (isalt : Option (List Nat))
    (rs : RSt) (ip : List Nat) :
    ∀ (ps : List (List Nat)) (en : List Nat),
      TcpStream.writeList A w ⟨m, some w, ds, en, dn, isalt, rs, .writeLength, ip, []⟩ ps
        = (encodeRecords A w en (recordsOf ps),
           ⟨m, some w, ds, Nonce.increment^[2 * (recordsOf ps).length] en, dn, isalt,
             rs, .writeLength, ip, []⟩) := by
  intro ps
  induction ps with
  | nil =>
    intro en
    simp [TcpStream.writeList, recordsOf_nil, encodeRecords]
  | cons p ps ih =>
    intro en
    simp only [TcpStream.writeList]
    rw [writeAll_salted A w m ds dn isalt rs ip p.length p en (le_refl _), ih]
    rw [recordsOf_cons, encodeRecords_append]
    have h1 : Nonce.increment^[2 * (recordsOf ps).length]
        (Nonce.increment^[2 * (chunkify p).length] en)
        = Nonce.increment^[2 * (chunkify p ++ recordsOf ps).length] en := by
      rw [← Function.iterate_add_apply]
      congr 1
      simp only [List.length_append]
      ring
    rw [h1]

/-- A message sequence with nothing in it leaves a fresh stream fresh. -/
theorem writeList_fresh_nil (A : Aead) (w : List Nat) (m : Method)
    (ds : Option (List Nat)) (dn : List Nat) (isalt : Option (List Nat))
    (rs : RSt) (ip : List Nat) :
    ∀ (ps : List (List Nat)) (en : List Nat), ps.flatten = [] →
      TcpStream.writeList A w ⟨m, none, ds, en, dn, isalt, rs, .writeSalt, ip, []⟩ ps
        = ([], ⟨m, none, ds, en, dn, isalt, rs, .writeSalt, ip, []⟩) := by
  intro ps
  induction ps with
  | nil => intro en _; rfl
  | cons p ps ih =>
    intro en hflat
    simp only [List.flatten_cons, List.append_eq_nil] at hflat
    simp only [TcpStream.writeList]
    rw [hflat.1]
    rw [show TcpStream.writeAll A w ⟨m, none, ds, en, dn, isalt, rs, .writeSalt, ip, []⟩ []
        = ([], ⟨m, none, ds, en, dn, isalt, rs, .writeSalt, ip, []⟩) by
      rw [TcpStream.writeAll]; simp]
    rw [ih en hflat.2]
    rfl

/-- The wire of a fresh stream carrying at least one byte: the salt, then
the encoded records of every message. -/
theorem writeList_fresh (A : Aead) (w : List Nat) (m : Method)
    (ds : Option (List Nat)) (dn : List Nat) (isalt : Option (List Nat))
    (rs : RSt) (ip : List Nat) :
    ∀ (ps : List (List Nat)) (en : List Nat), ps.flatten ≠ [] →
      TcpStream.writeList A w ⟨m, none, ds, en, dn, isalt, rs, .writeSalt, ip, []⟩ ps
        = (w ++ encodeRecords A w en (recordsOf ps),
           ⟨m, some w, ds, Nonce.increment^[2 * (recordsOf ps).length] en, dn, isalt,
             rs, .writeLength, ip, []⟩) := by
  intro ps
  induction ps with
  | nil => intro en h; exact absurd rfl h
  | cons p ps ih =>
    intro en hflat
    by_cases hp : p = []
    · subst hp
      simp only [TcpStream.writeList]
      rw [show TcpStream.writeAll A w ⟨m, none, ds, en, dn, isalt, rs, .writeSalt, ip, []⟩ []
          = ([], ⟨m, none, ds, en, dn, isalt, rs, .writeSalt, ip, []⟩) by
        rw [TcpStream.writeAll]; simp]
      have hflat' : ps.flatten ≠ [] := by
        simpa using hflat
      rw [ih en hflat']
      rw [recordsOf_cons, chunkify_nil, List.nil_append]
      rfl
    · simp only [TcpStream.writeList]
      rw [writeAll_fresh A w m ds dn isalt rs ip p en hp]
      rw [writeList_salted]
      rw [recordsOf_cons, encodeRecords_append]
      have h1 : Nonce.increment^[2 * (recordsOf ps).length]
          (Nonce.increment^[2 * (chunkify p).length] en)
          = Nonce.increment^[2 * (chunkify p ++ recordsOf ps).length] en := by
        rw [← Function.iterate_add_apply]
        congr 1
        simp only [List.length_append]
        ring
      rw [h1]
      simp [List.append_assoc]

/-! ### Reader characterisation -/

theorem land_payload_mask {n : Nat} (h : n ≤ MAXIMUM_PAYLOAD_SIZE) :
    Nat.land n MAXIMUM_PAYLOAD_SIZE = n := by
  simp only [MAXIMUM_PAYLOAD_SIZE] at *
  have heq : Nat.land n 16383 = n &&& 16383 := rfl
  rw [heq]
  apply Nat.eq_of_testBit_eq
  intro i
  rw [Nat.testBit_and]
  by_cases hi : i < 14
  · have ht : Nat.testBit 16383 i = true := by
      interval_cases i <;> decide
    simp [ht]
  · have hbig : n < 2 ^ i := by
      calc n < 2 ^ 14 := by omega
        _ ≤ 2 ^ i := Nat.pow_le_pow_right (by norm_num) (by omega)
    rw [Nat.testBit_lt_two_pow hbig]
    simp

theorem saltSize_pos (m : Method) : m.saltSize ≠ 0 := by
  cases m <;> decide

theorem tagSize_add_pos (m : Method) (k : Nat) : k + m.tagSize ≠ 0 := by
  cases m <;> simp [Method.tagSize]

/-- Reading the salt from a fresh reader: the first `salt_size` wire bytes
become the incoming salt and the decrypt cipher. -/
theorem pollReadSalt_fresh (m : Method) (es : Option (List Nat)) (en dn : List Nat)
    (isalt : Option (List Nat)) (rs : RSt) (ws : WSt) (ip op : List Nat)
    (t : Transport) (w X : List Nat) (ht : chunksOK t)
    (hflat : t.flatten = w ++ X) (hw : w.length = m.saltSize) :
    ∃ t1, TcpStream.pollReadSalt ⟨m, es, none, en, dn, isalt, rs, ws, ip, op⟩ t
        = .ok (⟨m, es, some w, en, dn, some w, rs, ws, ip, op⟩, t1) ∧
      chunksOK t1 ∧ t1.flatten = X := by
  have hlen : m.saltSize ≤ t.flatten.length := by
    rw [hflat]
    simp only [List.length_append]
    omega
  obtain ⟨t1, heq, hok1, hflat1⟩ := readExact_spec m.saltSize t ht hlen
  refine ⟨t1, ?_, hok1, ?_⟩
  · simp only [TcpStream.pollReadSalt, heq]
    have htake : t.flatten.take m.saltSize = w := by
      rw [hflat, List.take_left' hw]
    rw [htake]
  · rw [hflat1, hflat, List.drop_left' hw]

/-- Reading and decrypting one length record whose plaintext is the length
of `q`, from a state with no buffered incoming salt: no replay consultation
happens. -/
theorem pollReadLength_none (A : Aead) (cr : List Nat → Bool) (m : Method)
    (es : Option (List Nat)) (en ν : List Nat) (rs : RSt) (ws : WSt)
    (ip op : List Nat) (w q X : List Nat) (t : Transport) (ht : chunksOK t)
    (hflat : t.flatten = A.enc w ν (beBytes2 q.length) ++ X)
    (hA : AeadGood m A w) (hq : q.length ≤ MAXIMUM_PAYLOAD_SIZE) :
    ∃ t1, chunksOK t1 ∧ t1.flatten = X ∧
      TcpStream.pollReadLength A cr ⟨m, es, some w, en, ν, none, rs, ws, ip, op⟩ t
        = ([], .ok (q.length,
            ⟨m, es, some w, en, Nonce.increment ν, none, rs, ws, ip, op⟩, t1)) := by
  have hclen : (A.enc w ν (beBytes2 q.length)).length = 2 + m.tagSize := by
    rw [hA.2]
    rfl
  have hlen : 2 + m.tagSize ≤ t.flatten.length := by
    rw [hflat]
    simp only [List.length_append, hclen]
    omega
  obtain ⟨t1, heq, hok1, hflat1⟩ := readExact_spec (2 + m.tagSize) t ht hlen
  have htake : t.flatten.take (2 + m.tagSize) = A.enc w ν (beBytes2 q.length) := by
    rw [hflat, List.take_left' hclen]
  refine ⟨t1, hok1, ?_, ?_⟩
  · rw [hflat1, hflat, List.drop_left' hclen]
  · simp only [TcpStream.pollReadLength, heq, htake]
    have hdec : TcpStream.decryptOp A ⟨m, es, some w, en, ν, none, rs, ws, ip, op⟩
        (A.enc w ν (beBytes2 q.length))
        = (.ok (beBytes2 q.length),
           ⟨m, es, some w, en, Nonce.increment ν, none, rs, ws, ip, op⟩) := by
      simp only [TcpStream.decryptOp, Option.getD_some, hA.1]
    rw [hdec]
    dsimp only
    have hlen16 : q.length < 65536 := by
      simp only [MAXIMUM_PAYLOAD_SIZE] at hq
      omega
    have hu16 : u16be ((beBytes2 q.length).getD 0 0) ((beBytes2 q.length).getD 1 0)
        = q.length := by
      simp only [beBytes2, List.getD_cons_zero, List.getD_cons_succ, u16be]
      omega
    rw [hu16, land_payload_mask hq]

/-- The same length-record read with the incoming salt still buffered: the
replay set is consulted exactly once, and a fresh salt proceeds as above. -/
theorem pollReadLength_consult (A : Aead) (cr : List Nat → Bool) (m : Method)
    (es : Option (List Nat)) (en ν : List Nat) (rs : RSt) (ws : WSt)
    (ip op : List Nat) (w q X : List Nat) (t : Transport) (ht : chunksOK t)
    (hflat : t.flatten = A.enc w ν (beBytes2 q.length) ++ X)
    (hA : AeadGood m A w) (hq : q.length ≤ MAXIMUM_PAYLOAD_SIZE) :
    ∃ t1, chunksOK t1 ∧ t1.flatten = X ∧
      TcpStream.pollReadLength A cr ⟨m, es, some w, en, ν, some w, rs, ws, ip, op⟩ t
        = ([w],
           if cr w then
             .ok (q.length, ⟨m, es, some w, en, Nonce.increment ν, none, rs, ws, ip, op⟩, t1)
           else .error .duplicateSalt) := by
  have hclen : (A.enc w ν (beBytes2 q.length)).length = 2 + m.tagSize := by
    rw [hA.2]
    rfl
  have hlen : 2 + m.tagSize ≤ t.flatten.length := by
    rw [hflat]
    simp only [List.length_append, hclen]
    omega
  obtain ⟨t1, heq, hok1, hflat1⟩ := readExact_spec (2 + m.tagSize) t ht hlen
  have htake : t.flatten.take (2 + m.tagSize) = A.enc w ν (beBytes2 q.length) := by
    rw [hflat, List.take_left' hclen]
  refine ⟨t1, hok1, ?_, ?_⟩
  · rw [hflat1, hflat, List.drop_left' hclen]
  · simp only [TcpStream.pollReadLength, heq, htake]
    have hdec : TcpStream.decryptOp A ⟨m, es, some w, en, ν, some w, rs, ws, ip, op⟩
        (A.enc w ν (beBytes2 q.length))
        = (.ok (beBytes2 q.length),
           ⟨m, es, some w, en, Nonce.increment ν, some w, rs, ws, ip, op⟩) := by
      simp only [TcpStream.decryptOp, Option.getD_some, hA.1]
    rw [hdec]
    have hu16 : u16be ((beBytes2 q.length).getD 0 0) ((beBytes2 q.length).getD 1 0)
        = q.length := by
      have hlen16 : q.length < 65536 := by
        simp only [MAXIMUM_PAYLOAD_SIZE] at hq
        omega
      simp only [beBytes2, List.getD_cons_zero, List.getD_cons_succ, u16be]
      omega
    dsimp only
    rw [hu16, land_payload_mask hq]
    by_cases hcrw : cr w <;> simp [hcrw]

/-- Reading and decrypting one payload record. -/
theorem pollReadPayload_spec (A : Aead) (m : Method) (es : Option (List Nat))
    (en ν : List Nat) (isalt : Option (List Nat)) (rs : RSt) (ws : WSt)
    (ip op : List Nat) (w q X : List Nat) (t : Transport) (ht : chunksOK t)
    (hflat : t.flatten = A.enc w ν q ++ X) (hA : AeadGood m A w) :
    ∃ t1, chunksOK t1 ∧ t1.flatten = X ∧
      TcpStream.pollReadPayload A ⟨m, es, some w, en, ν, isalt, rs, ws, ip, op⟩ t q.length
        = .ok (q, ⟨m, es, some w, en, Nonce.increment ν, isalt, rs, ws, ip, op⟩, t1) := by
  have hclen : (A.enc w ν q).length = q.length + m.tagSize := hA.2 ν q
  have hlen : q.length + m.tagSize ≤ t.flatten.length := by
    rw [hflat]
    simp only [List.length_append, hclen]
    omega
  obtain ⟨t1, heq, hok1, hflat1⟩ := readExact_spec (q.length + m.tagSize) t ht hlen
  have htake : t.flatten.take (q.length + m.tagSize) = A.enc w ν q := by
    rw [hflat, List.take_left' hclen]
  refine ⟨t1, hok1, ?_, ?_⟩
  · rw [hflat1, hflat, List.drop_left' hclen]
  · simp only [TcpStream.pollReadPayload, heq, htake]
    have hdec : TcpStream.decryptOp A ⟨m, es, some w, en, ν, isalt, rs, ws, ip, op⟩
        (A.enc w ν q)
        = (.ok q, ⟨m, es, some w, en, Nonce.increment ν, isalt, rs, ws, ip, op⟩) := by
      simp only [TcpStream.decryptOp, Option.getD_some, hA.1]
    rw [hdec]

/-- One full record processed from the `ReadLength` state, replay already
settled (no buffered salt). -/
theorem runFromLength_none (A : Aead) (cr : List Nat → Bool) (cap : Nat)
    (m : Method) (es : Option (List Nat)) (en ν : List Nat) (rs : RSt) (ws : WSt)
    (ip op w q X : List Nat) (t : Transport) (ht : chunksOK t)
    (hflat : t.flatten
      = A.enc w ν (beBytes2 q.length) ++ (A.enc w (Nonce.increment ν) q ++ X))
    (hA : AeadGood m A w) (hq : q.length ≤ MAXIMUM_PAYLOAD_SIZE) :
    ∃ t2, chunksOK t2 ∧ t2.flatten = X ∧
      TcpStream.runFromLength A cr cap ⟨m, es, some w, en, ν, none, rs, ws, ip, op⟩ t
        = ([], .ok (
            (if q.length ≤ cap then q else q.take cap),
            ⟨m, es, some w, en, Nonce.increment (Nonce.increment ν), none,
              (if q.length ≤ cap then RSt.readLength else RSt.readPayloadOut), ws,
              (if q.length ≤ cap then q else q.drop cap), op⟩,
            t2)) := by
  obtain ⟨t1, hok1, hflat1, heq1⟩ := pollReadLength_none A cr m es en ν rs ws ip op
    w q (A.enc w (Nonce.increment ν) q ++ X) t ht hflat hA hq
  obtain ⟨t2, hok2, hflat2, heq2⟩ := pollReadPayload_spec A m es en (Nonce.increment ν)
    none (.readPayload q.length) ws ip op w q X t1 hok1 hflat1 hA
  refine ⟨t2, hok2, hflat2, ?_⟩
  simp only [TcpStream.runFromLength, heq1]
  simp only [TcpStream.runFromPayload]
  rw [heq2]
  simp only [TcpStream.readPayloadOut]
  by_cases hc : q.length ≤ cap <;> simp [hc]

/-- The first record: the buffered salt is consulted once; when fresh the
record is processed as usual. -/
theorem runFromLength_consult (A : Aead) (cr : List Nat → Bool) (cap : Nat)
    (m : Method) (es : Option (List Nat)) (en ν : List Nat) (rs : RSt) (ws : WSt)
    (ip op w q X : List Nat) (t : Transport) (ht : chunksOK t)
    (hflat : t.flatten
      = A.enc w ν (beBytes2 q.length) ++ (A.enc w (Nonce.increment ν) q ++ X))
    (hA : AeadGood m A w) (hq : q.length ≤ MAXIMUM_PAYLOAD_SIZE)
    (hcr : cr w = true) :
    ∃ t2, chunksOK t2 ∧ t2.flatten = X ∧
      TcpStream.runFromLength A cr cap ⟨m, es, some w, en, ν, some w, rs, ws, ip, op⟩ t
        = ([w], .ok (
            (if q.length ≤ cap then q else q.take cap),
            ⟨m, es, some w, en, Nonce.increment (Nonce.increment ν), none,
              (if q.length ≤ cap then RSt.readLength else RSt.readPayloadOut), ws,
              (if q.length ≤ cap then q else q.drop cap), op⟩,
            t2)) := by
  obtain ⟨t1, hok1, hflat1, heq1⟩ := pollReadLength_consult A cr m es en ν rs ws ip op
    w q (A.enc w (Nonce.increment ν) q ++ X) t ht hflat hA hq
  obtain ⟨t2, hok2, hflat2, heq2⟩ := pollReadPayload_spec A m es en (Nonce.increment ν)
    none (.readPayload q.length) ws ip op w q X t1 hok1 hflat1 hA
  refine ⟨t2, hok2, hflat2, ?_⟩
  simp only [TcpStream.runFromLength, heq1, hcr, if_true]
  simp only [TcpStream.runFromPayload]
  rw [heq2]
  simp only [TcpStream.readPayloadOut]
  by_cases hc : q.length ≤ cap <;> simp [hc]

/-- The first record with a replayed salt: the read fails with
`DuplicateSalt` and no plaintext comes out. -/
theorem runFromLength_dup (A : Aead) (cr : List Nat → Bool) (cap : Nat)
    (m : Method) (es : Option (List Nat)) (en ν : List Nat) (rs : RSt) (ws : WSt)
    (ip op w q X : List Nat) (t : Transport) (ht : chunksOK t)
    (hflat : t.flatten = A.enc w ν (beBytes2 q.length) ++ X)
    (hA : AeadGood m A w) (hq : q.length ≤ MAXIMUM_PAYLOAD_SIZE)
    (hcr : cr w = false) :
    TcpStream.runFromLength A cr cap ⟨m, es, some w, en, ν, some w, rs, ws, ip, op⟩ t
      = ([w], .error .duplicateSalt) := by
  obtain ⟨t1, hok1, hflat1, heq1⟩ := pollReadLength_consult A cr m es en ν rs ws ip op
    w q X t ht hflat hA hq
  simp only [TcpStream.runFromLength, heq1, hcr]
  simp

theorem pollReadLength_nil (A : Aead) (cr : List Nat → Bool) (s : TcpStream) :
    TcpStream.pollReadLength A cr s ([] : Transport) = ([], .error .unexpectedEof) := by
  simp only [TcpStream.pollReadLength]
  rw [readExact_nil _ (by cases hs : s.cipherMethod <;> simp [Method.tagSize])]

theorem runFromLength_nil (A : Aead) (cr : List Nat → Bool) (cap : Nat) (s : TcpStream) :
    TcpStream.runFromLength A cr cap s ([] : Transport) = ([], .error .unexpectedEof) := by
  simp only [TcpStream.runFromLength, pollReadLength_nil]

theorem pollReadHelper_of_ok {A : Aead} {cr : List Nat → Bool} {cap : Nat}
    {s : TcpStream} {t : Transport} {cs : List (List Nat)}
    {x : List Nat × TcpStream × Transport}
    (h : TcpStream.pollReadDecrypt A cr cap s t = (cs, .ok x)) :
    TcpStream.pollReadHelper A cr cap s t = (cs, .ok x) := by
  simp only [TcpStream.pollReadHelper, h]

theorem pollReadHelper_of_eof {A : Aead} {cr : List Nat → Bool} {cap : Nat}
    {s : TcpStream} {t : Transport} {cs : List (List Nat)}
    (h : TcpStream.pollReadDecrypt A cr cap s t = (cs, .error .unexpectedEof)) :
    TcpStream.pollReadHelper A cr cap s t = (cs, .ok ([], s, t)) := by
  simp only [TcpStream.pollReadHelper, h]

theorem pollReadHelper_of_err {A : Aead} {cr : List Nat → Bool} {cap : Nat}
    {s : TcpStream} {t : Transport} {cs : List (List Nat)} {e : SsErr}
    (he : e ≠ SsErr.unexpectedEof)
    (h : TcpStream.pollReadDecrypt A cr cap s t = (cs, .error e)) :
    TcpStream.pollReadHelper A cr cap s t = (cs, .error e) := by
  cases e
  · simp only [TcpStream.pollReadHelper, h]
  · simp only [TcpStream.pollReadHelper, h]
  · simp only [TcpStream.pollReadHelper, h]
  · exact absurd rfl he

theorem encodeRecords_cons (A : Aead) (w ν q : List Nat) (qs : List (List Nat)) :
    encodeRecords A w ν (q :: qs)
      = A.enc w ν (beBytes2 q.length)
        ++ (A.enc w (Nonce.increment ν) q
          ++ encodeRecords A w (Nonce.increment (Nonce.increment ν)) qs) := by
  simp [encodeRecords]

theorem goodRecs_cons {q : List Nat} {qs : List (List Nat)}
    (h : GoodRecs (q :: qs)) :
    q ≠ [] ∧ q.length ≤ MAXIMUM_PAYLOAD_SIZE ∧ GoodRecs qs :=
  ⟨(h q (by simp)).1, (h q (by simp)).2, fun x hx => h x (by simp [hx])⟩

theorem take_ne_nil_of {q : List Nat} {cap : Nat} (hq : q ≠ []) (hcap : 1 ≤ cap) :
    q.take cap ≠ [] := by
  intro h
  have := congrArg List.length h
  have hql : 0 < q.length := List.length_pos.mpr hq
  simp only [List.length_take, List.length_nil] at this
  omega

theorem drop_ne_nil_of {q : List Nat} {cap : Nat} (hlt : cap < q.length) :
    q.drop cap ≠ [] := by
  intro h
  have := congrArg List.length h
  simp only [List.length_drop, List.length_nil] at this
  omega

/-- The reader's simulation invariant: the stream state and remaining
transport bytes represent the still-undelivered plaintext `rest`.  Three
shapes: fresh (salt not yet read, the wire holding the salt and records),
between records, and mid-drain of a decrypted payload. -/
def ReaderInv (m : Method) (A : Aead) (w : List Nat) (s : TcpStream)
    (t : Transport) (rest : List Nat) : Prop :=
  s.cipherMethod = m ∧ chunksOK t ∧
  ((∃ qs, GoodRecs qs ∧ s.decSalt = none ∧ s.incomingSalt = none ∧
      s.readState = .readSalt ∧ s.decNonce = Nonce.new m.ivSize ∧
      t.flatten = (if qs.isEmpty then []
        else w ++ encodeRecords A w (Nonce.new m.ivSize) qs) ∧
      rest = qs.flatten) ∨
   (∃ qs, GoodRecs qs ∧ s.decSalt = some w ∧ s.incomingSalt = none ∧
      s.readState = .readLength ∧
      t.flatten = encodeRecords A w s.decNonce qs ∧ rest = qs.flatten) ∨
   (∃ qs, GoodRecs qs ∧ s.decSalt = some w ∧ s.incomingSalt = none ∧
      s.readState = .readPayloadOut ∧ s.inPayload ≠ [] ∧
      t.flatten = encodeRecords A w s.decNonce qs ∧
      rest = s.inPayload ++ qs.flatten))

/-- One `poll_read` under the invariant: at the end of the plaintext it
reports a clean zero-byte EOF; otherwise it delivers a non-empty prefix of
the remaining plaintext and re-establishes the invariant, consulting the
replay set exactly on the call that processes the first length record. -/
theorem reader_step (m : Method) (A : Aead) (w : List Nat) (cr : List Nat → Bool)
    (hA : AeadGood m A w) (hw : w.length = m.saltSize) (hcr : cr w = true)
    (s : TcpStream) (t : Transport) (rest : List Nat) (cap : Nat)
    (hInv : ReaderInv m A w s t rest) (hcap : 1 ≤ cap) :
    (rest = [] → TcpStream.pollReadHelper A cr cap s t = ([], .ok ([], s, t))) ∧
    (rest ≠ [] → ∃ out s1 t1 rest1,
      TcpStream.pollReadHelper A cr cap s t
        = ((if s.decSalt = none then [w] else []), .ok (out, s1, t1)) ∧
      out ≠ [] ∧ rest = out ++ rest1 ∧ s1.decSalt = some w ∧
      ReaderInv m A w s1 t1 rest1) := by
  obtain ⟨hcm, ht, hdisj⟩ := hInv
  rcases s with ⟨m0, es, ds, en, dn, isalt, rs, ws, ip, op⟩
  dsimp only at hcm
  have hcm2 := hcm.symm
  subst hcm2
  rcases hdisj with ⟨qs, hgood, hds, his, hrs, hdn, hflat, hrest⟩ |
    ⟨qs, hgood, hds, his, hrs, hflat, hrest⟩ |
    ⟨qs, hgood, hds, his, hrs, hipne, hflat, hrest⟩ <;>
    dsimp only at hds his hrs hflat hrest <;> subst hds his hrs hrest
  · -- fresh state
    dsimp only at hdn
    subst hdn
    rcases qs with - | ⟨q, qs'⟩
    · -- empty wire: clean EOF on the very first read
      simp only [List.isEmpty_nil, if_true] at hflat
      have hteq : t = [] := flatten_nil_of_chunksOK t ht hflat
      subst hteq
      constructor
      · intro _
        apply pollReadHelper_of_eof
        simp only [TcpStream.pollReadDecrypt, TcpStream.pollReadSalt]
        rw [readExact_nil m.saltSize (saltSize_pos m)]
      · intro hne
        exact absurd rfl hne
    · -- at least one record: read salt, first length record, first payload
      obtain ⟨hqne, hqle, hgood'⟩ := goodRecs_cons hgood
      simp only [List.isEmpty_cons, if_false] at hflat
      rw [encodeRecords_cons] at hflat
      obtain ⟨t1, hsalt, hok1, hflat1⟩ := pollReadSalt_fresh m es en
        (Nonce.new m.ivSize) none .readSalt ws ip op t w _ ht hflat hw
      obtain ⟨t2, hok2, hflat2, hrun⟩ := runFromLength_consult A cr cap m es en
        (Nonce.new m.ivSize) .readLength ws ip op w q
        (encodeRecords A w (Nonce.increment (Nonce.increment (Nonce.new m.ivSize))) qs')
        t1 hok1 hflat1 hA hqle hcr
      have hdecr : TcpStream.pollReadDecrypt A cr cap
          ⟨m, es, none, en, Nonce.new m.ivSize, none, .readSalt, ws, ip, op⟩ t
          = ([w], .ok (
              (if q.length ≤ cap then q else q.take cap),
              ⟨m, es, some w, en,
                Nonce.increment (Nonce.increment (Nonce.new m.ivSize)), none,
                (if q.length ≤ cap then RSt.readLength else RSt.readPayloadOut), ws,
                (if q.length ≤ cap then q else q.drop cap), op⟩,
              t2)) := by
        simp only [TcpStream.pollReadDecrypt, hsalt]
        exact hrun
      constructor
      · intro hnil
        exfalso
        simp only [List.flatten_cons] at hnil
        exact hqne (List.append_eq_nil.mp hnil).1
      · intro _
        by_cases hc : q.length ≤ cap
        · refine ⟨q,
            ⟨m, es, some w, en, Nonce.increment (Nonce.increment (Nonce.new m.ivSize)),
              none, .readLength, ws, q, op⟩, t2, qs'.flatten, ?_, hqne, by simp, rfl, ?_⟩
          · rw [pollReadHelper_of_ok hdecr]
            simp [hc]
          · exact ⟨rfl, hok2, Or.inr (Or.inl ⟨qs', hgood', rfl, rfl, rfl, hflat2, rfl⟩)⟩
        · have hlt : cap < q.length := by omega
          refine ⟨q.take cap,
            ⟨m, es, some w, en, Nonce.increment (Nonce.increment (Nonce.new m.ivSize)),
              none, .readPayloadOut, ws, q.drop cap, op⟩, t2, q.drop cap ++ qs'.flatten,
            ?_, take_ne_nil_of hqne hcap, ?_, rfl, ?_⟩
          · rw [pollReadHelper_of_ok hdecr]
            simp [hc]
          · simp only [List.flatten_cons, ← List.append_assoc, List.take_append_drop]
          · exact ⟨rfl, hok2, Or.inr (Or.inr ⟨qs', hgood', rfl, rfl, rfl,
              drop_ne_nil_of hlt, hflat2, rfl⟩)⟩
  · -- between records
    rcases qs with - | ⟨q, qs'⟩
    · simp only [encodeRecords] at hflat
      have hteq : t = [] := flatten_nil_of_chunksOK t ht hflat
      subst hteq
      constructor
      · intro _
        apply pollReadHelper_of_eof
        simp only [TcpStream.pollReadDecrypt]
        exact runFromLength_nil A cr cap _
      · intro hne
        exact absurd rfl hne
    · obtain ⟨hqne, hqle, hgood'⟩ := goodRecs_cons hgood
      rw [encodeRecords_cons] at hflat
      obtain ⟨t2, hok2, hflat2, hrun⟩ := runFromLength_none A cr cap m es en
        dn .readLength ws ip op w q
        (encodeRecords A w (Nonce.increment (Nonce.increment dn)) qs')
        t ht hflat hA hqle
      have hdecr : TcpStream.pollReadDecrypt A cr cap
          ⟨m, es, some w, en, dn, none, .readLength, ws, ip, op⟩ t
          = ([], .ok (
              (if q.length ≤ cap then q else q.take cap),
              ⟨m, es, some w, en, Nonce.increment (Nonce.increment dn), none,
                (if q.length ≤ cap then RSt.readLength else RSt.readPayloadOut), ws,
                (if q.length ≤ cap then q else q.drop cap), op⟩,
              t2)) := by
        simp only [TcpStream.pollReadDecrypt]
        exact hrun
      constructor
      · intro hnil
        exfalso
        simp only [List.flatten_cons] at hnil
        exact hqne (List.append_eq_nil.mp hnil).1
      · intro _
        by_cases hc : q.length ≤ cap
        · refine ⟨q,
            ⟨m, es, some w, en, Nonce.increment (Nonce.increment dn),
              none, .readLength, ws, q, op⟩, t2, qs'.flatten, ?_, hqne, by simp, rfl, ?_⟩
          · rw [pollReadHelper_of_ok hdecr]
            simp [hc]
          · exact ⟨rfl, hok2, Or.inr (Or.inl ⟨qs', hgood', rfl, rfl, rfl, hflat2, rfl⟩)⟩
        · have hlt : cap < q.length := by omega
          refine ⟨q.take cap,
            ⟨m, es, some w, en, Nonce.increment (Nonce.increment dn),
              none, .readPayloadOut, ws, q.drop cap, op⟩, t2, q.drop cap ++ qs'.flatten,
            ?_, take_ne_nil_of hqne hcap, ?_, rfl, ?_⟩
          · rw [pollReadHelper_of_ok hdecr]
            simp [hc]
          · simp only [List.flatten_cons, ← List.append_assoc, List.take_append_drop]
          · exact ⟨rfl, hok2, Or.inr (Or.inr ⟨qs', hgood', rfl, rfl, rfl,
              drop_ne_nil_of hlt, hflat2, rfl⟩)⟩
  · -- draining a decrypted payload
    dsimp only at hipne
    constructor
    · intro hnil
      exfalso
      exact hipne (List.append_eq_nil.mp hnil).1
    · intro _
      have hdecr : TcpStream.pollReadDecrypt A cr cap
          ⟨m, es, some w, en, dn, none, .readPayloadOut, ws, ip, op⟩ t
          = ([], .ok (
              (if ip.length ≤ cap then ip else ip.take cap),
              ⟨m, es, some w, en, dn, none,
                (if ip.length ≤ cap then RSt.readLength else RSt.readPayloadOut), ws,
                (if ip.length ≤ cap then ip else ip.drop cap), op⟩,
              t)) := by
        simp only [TcpStream.pollReadDecrypt, TcpStream.readPayloadOut]
        by_cases hc : ip.length ≤ cap <;> simp [hc]
      by_cases hc : ip.length ≤ cap
      · refine ⟨ip,
          ⟨m, es, some w, en, dn, none, .readLength, ws, ip, op⟩, t, qs.flatten,
          ?_, hipne, rfl, rfl, ?_⟩
        · rw [pollReadHelper_of_ok hdecr]
          simp [hc]
        · exact ⟨rfl, ht, Or.inr (Or.inl ⟨qs, hgood, rfl, rfl, rfl, hflat, rfl⟩)⟩
      · have hlt : cap < ip.length := by omega
        refine ⟨ip.take cap,
          ⟨m, es, some w, en, dn, none, .readPayloadOut, ws, ip.drop cap, op⟩, t,
          ip.drop cap ++ qs.flatten, ?_, take_ne_nil_of hipne hcap, ?_, rfl, ?_⟩
        · rw [pollReadHelper_of_ok hdecr]
          simp [hc]
        · simp only [← List.append_assoc, List.take_append_drop]
        · exact ⟨rfl, ht, Or.inr (Or.inr ⟨qs, hgood, rfl, rfl, rfl,
            drop_ne_nil_of hlt, hflat, rfl⟩)⟩

/-- Iterating `reader_step`: when enough `poll_read` calls are made (one
per remaining plaintext byte plus the final EOF call suffices), the reader
delivers exactly the remaining plaintext, consults the replay set exactly
on the salt-reading call, and surfaces no error. -/
theorem reader_run (m : Method) (A : Aead) (w : List Nat) (cr : List Nat → Bool)
    (hA : AeadGood m A w) (hw : w.length = m.saltSize) (hcr : cr w = true)
    (caps : List Nat) :
    ∀ (s : TcpStream) (t : Transport) (rest : List Nat),
      ReaderInv m A w s t rest → (∀ c ∈ caps, 1 ≤ c) →
      rest.length + 1 ≤ caps.length →
      ∃ outs, TcpStream.readAllTrace A cr caps s t
          = ⟨outs, (if rest = [] then []
              else if s.decSalt = none then [w] else []), none⟩
        ∧ outs.flatten = rest := by
  induction caps with
  | nil =>
    intro s t rest _ _ hlen
    simp only [List.length_nil] at hlen
    omega
  | cons cap caps ih =>
    intro s t rest hInv hcaps hlen
    obtain ⟨hstep0, hstep1⟩ := reader_step m A w cr hA hw hcr s t rest cap hInv
      (hcaps cap (by simp))
    by_cases hre : rest = []
    · subst hre
      refine ⟨[], ?_, rfl⟩
      simp only [TcpStream.readAllTrace, hstep0 rfl]
      simp
    · obtain ⟨out, s1, t1, rest1, heq, houtne, hsplit, hds1, hInv1⟩ := hstep1 hre
      have hout1 : 1 ≤ out.length := List.length_pos.mpr houtne
      have hlen1 : rest1.length + 1 ≤ caps.length := by
        have hl := congrArg List.length hsplit
        simp only [List.length_append, List.length_cons] at hl hlen
        omega
      obtain ⟨outs1, hr, hflat1⟩ := ih s1 t1 rest1 hInv1
        (fun c hc => hcaps c (by simp [hc])) hlen1
      refine ⟨out :: outs1, ?_, by simp [hflat1, hsplit]⟩
      rcases out with - | ⟨b, out2⟩
      · exact absurd rfl houtne
      simp only [TcpStream.readAllTrace, heq, hr, List.isEmpty_cons, Bool.false_eq_true,
        if_false, hds1]
      simp [hre, hds1]

/-- A fresh reader whose salt the replay set reports as a duplicate: the
very first `poll_read` consults the set once, fails with `DuplicateSalt`,
and delivers no plaintext at all. -/
theorem reader_dup (m : Method) (A : Aead) (w : List Nat) (cr : List Nat → Bool)
    (hA : AeadGood m A w) (hw : w.length = m.saltSize) (hcr : cr w = false)
    (cap : Nat) (caps : List Nat) (t : Transport) (ht : chunksOK t)
    (q : List Nat) (qs : List (List Nat)) (hq : q.length ≤ MAXIMUM_PAYLOAD_SIZE)
    (hflat : t.flatten
      = w ++ encodeRecords A w (Nonce.new m.ivSize) (q :: qs)) :
    TcpStream.readAllTrace A cr (cap :: caps) (TcpStream.new m) t
      = ⟨[], [w], some .duplicateSalt⟩ := by
  rw [encodeRecords_cons] at hflat
  obtain ⟨t1, hsalt, hok1, hflat1⟩ := pollReadSalt_fresh m none
    (Nonce.new m.ivSize) (Nonce.new m.ivSize) none .readSalt .writeSalt [] [] t w _
    ht hflat hw
  have hrun := runFromLength_dup A cr cap m none (Nonce.new m.ivSize)
    (Nonce.new m.ivSize) .readLength .writeSalt [] [] w q
    (A.enc w (Nonce.increment (Nonce.new m.ivSize)) q
      ++ encodeRecords A w (Nonce.increment (Nonce.increment (Nonce.new m.ivSize))) qs)
    t1 hok1 hflat1 hA hq hcr
  have hdecr : TcpStream.pollReadDecrypt A cr cap (TcpStream.new m) t
      = ([w], .error .duplicateSalt) := by
    simp only [TcpStream.new, TcpStream.pollReadDecrypt, hsalt]
    exact hrun
  have hhelp := pollReadHelper_of_err (by simp) hdecr
  simp only [TcpStream.readAllTrace, hhelp]

/-- A concrete instance of the abstract AEAD used to evaluate the model on
closed inputs: the ciphertext is the plaintext followed by a 16-byte tag. -/
def modelAead : Aead :=
  ⟨fun _ _ p => p ++ List.replicate 16 0,
   fun _ _ c => if 16 ≤ c.length then some (c.take (c.length - 16)) else none⟩

theorem modelAead_good (m : Method) (w : List Nat) : AeadGood m modelAead w := by
  constructor
  · intro nonce p
    simp only [modelAead]
    rw [if_pos (by simp)]
    congr 1
    simp only [List.length_append, List.length_replicate]
    rw [Nat.add_sub_cancel]
    exact List.take_left p _
  · intro nonce p
    simp only [modelAead, List.length_append, List.length_replicate]
    cases m <;> rfl

/-! ## Claim theorems -/

/-- C3: the claim's duplicate/insert behaviour holds, but its rotation clause
fails on the code: `count` is a running total that is never reset, so the
`count == EXPECTED_NUM_ITEMS` test succeeds only at the 10⁶-th insertion.
After 2·10⁶ distinct insertions only the first rotation has happened
(`current` is still 1, where a second rotation would have returned it to 0)
and the counter has kept growing to 2·10⁶ instead of being reset per window.
This contradicts the code's evident dual-filter ping-pong design (spec:
"rotation recurs every 10⁶ insertions"), so the code is the bug. -/
theorem c3_rotation_fires_only_once :
    (distinctRun 1000000).current = 1 ∧
    (distinctRun 2000000).current = 1 ∧
    (distinctRun 2000000).count = 2000000 := by
  obtain ⟨-, h1, -, -⟩ := distinctRun_inv 1000000 (by norm_num)
  obtain ⟨h2count, h2, -, -⟩ := distinctRun_inv 2000000 (by norm_num)
  refine ⟨?_, ?_, h2count⟩
  · rw [h1]; norm_num
  · rw [h2]; norm_num

/-- C8, counterexample to the degenerate `m = 0` clause: inserting the CIDR
`0.0.0.0/0` marks the trie root complete, but `Trie::contains` inspects the
complete flag only after descending one bit, so the root flag is never seen
and no address is contained — the claim says every IPv4 address would be. -/
theorem c8_mask_zero_not_contained :
    (IpSet.new.insert ⟨.v4 [0, 0, 0, 0], 0⟩).contains (.v4 [1, 2, 3, 4]) = false := by
  decide

/-- C8, amended: the prefix law holds for masks of at least one bit
(`insert c` makes every same-family address sharing the first `c.mask ≥ 1`
bits a member) and, for a set built by insertions of well-formed CIDRs,
`contains x` holds iff some non-empty prefix of `x`'s bits lands on a
complete (terminal) node of the corresponding trie.  The original claim's
`m = 0` case is false (see the counterexample): a mask-0 insertion marks the
root, which `contains` never inspects. -/
theorem c8_prefix_law_and_terminal_iff :
    (∀ (s : IpSet) (c : Cidr) (x : IpAddr),
      c.wf → x.wf → 1 ≤ c.mask → c.addr.sameFamily x →
      x.bits.take c.mask = c.addr.bits.take c.mask →
      (s.insert c).contains x = true) ∧
    (∀ (cs : List Cidr) (x : IpAddr), (∀ c ∈ cs, c.wf) → x.wf →
      ((IpSet.insertAll IpSet.new cs).contains x = true ↔
        ((IpSet.insertAll IpSet.new cs).trieFor x).reachesComplete x.bits)) :=
  ⟨insert_contains_of_same_bits, insertAll_contains_iff⟩

/-- C8 witness: the amended theorem applied at `192.168.0.0/16` and the
address `192.168.5.7`, discharging every hypothesis at the concrete input. -/
theorem c8_prefix_law_witness :
    (IpSet.new.insert ⟨.v4 [192, 168, 0, 0], 16⟩).contains (.v4 [192, 168, 5, 7]) = true :=
  c8_prefix_law_and_terminal_iff.1 IpSet.new ⟨.v4 [192, 168, 0, 0], 16⟩
    (.v4 [192, 168, 5, 7]) (by constructor <;> norm_num) (by rfl)
    (by norm_num) trivial (by decide)

/-- C7: `Acl::is_bypass` computes exactly the spec's four-step decision
order (host rules when the host differs from the formatted ip, then bypass
list, then proxy list, then the mode default, BlackList giving true).  The
embedding is a pure function of the ACL value and the `(ip, host)`
arguments, so the result cannot depend on the order of prior calls. -/
theorem c7_is_bypass_decision_order (ipStr : IpAddr → String) (acl : Acl)
    (ip : IpAddr) (host : Option String) :
    Acl.is_bypass ipStr acl ip host = specBypass ipStr acl ip host := by
  rcases host with - | h
  · simp only [Acl.is_bypass, specBypass]
    rcases acl.mode <;> simp
  · by_cases hdiff : h = ipStr ip <;>
      · simp only [Acl.is_bypass, specBypass]
        rcases acl.mode <;> simp_all

/-- C10: with no ACL configured (`acl` is `None`), `Ctx::is_bypass` and
`Ctx::is_block_outbound` both return false, for every address and optional
host — a remote without an ACL never rejects a peer or blocks an outbound
destination, and a local client proxies everything. -/
theorem c10_no_acl_never_bypasses_or_blocks (ipStr : IpAddr → String)
    (b : Bloom) (ip : IpAddr) (host : Option String) :
    Ctx.is_bypass ipStr ⟨b, none⟩ ip host = false ∧
      Ctx.is_block_outbound ipStr ⟨b, none⟩ ip host = false :=
  ⟨rfl, rfl⟩

/-- C9, counterexample: serialisation truncates the domain length `as u8`,
so a `DomainName` value of 256 bytes (a legal Rust value) writes a length
byte of 0 and does not parse back to itself — the parse yields the empty
domain with a port built from the first two name bytes. -/
theorem c9_domain_over_255_breaks_roundtrip :
    Socks5Addr.construct (fun l => l.all (· < 128))
        ((Socks5Addr.domainName (List.replicate 256 97) 80).get_raw_parts)
      = Except.ok (Socks5Addr.domainName [] 24929, List.replicate 254 97 ++ [0, 80]) ∧
    Socks5Addr.domainName ([] : List Nat) 24929
      ≠ Socks5Addr.domainName (List.replicate 256 97) 80 := by
  constructor
  · set_option maxRecDepth 4000 in rfl
  · decide

/-- C9, amended: parse-after-serialise is the identity on every `Socks5Addr`
the Rust types can hold whose domain name (when present) is at most 255
bytes: octets and ports are within range and the domain is valid UTF-8 —
all guaranteed by the Rust types — plus the length bound, which is not (see
the counterexample).  The parser also leaves exactly the trailing bytes. -/
theorem c9_construct_inverts_get_raw_parts (isUtf8 : List Nat → Bool)
    (a : Socks5Addr) (rest : List Nat) (hwf : a.wf isUtf8) :
    Socks5Addr.construct isUtf8 (a.get_raw_parts ++ rest) = .ok (a, rest) :=
  construct_get_raw_parts isUtf8 a rest hwf

/-- C9 witness: the round trip applied at one concrete address of each ATYP
form, discharging the well-formedness hypotheses by computation. -/
theorem c9_roundtrip_witness :
    Socks5Addr.construct (fun l => l.all (· < 128))
        ((Socks5Addr.ipv4 127 0 0 1 8080).get_raw_parts ++ [9])
      = .ok (Socks5Addr.ipv4 127 0 0 1 8080, [9]) ∧
    Socks5Addr.construct (fun l => l.all (· < 128))
        ((Socks5Addr.ipv6 0 0 0 0 0 0 0 1 443).get_raw_parts ++ [])
      = .ok (Socks5Addr.ipv6 0 0 0 0 0 0 0 1 443, []) ∧
    Socks5Addr.construct (fun l => l.all (· < 128))
        ((Socks5Addr.domainName [101, 120] 80).get_raw_parts ++ [1, 2])
      = .ok (Socks5Addr.domainName [101, 120] 80, [1, 2]) :=
  ⟨c9_construct_inverts_get_raw_parts _ _ _ (by refine ⟨?_, ?_, ?_, ?_, ?_⟩ <;> norm_num),
   c9_construct_inverts_get_raw_parts _ _ _
     (by refine ⟨?_, ?_, ?_, ?_, ?_, ?_, ?_, ?_, ?_⟩ <;> norm_num),
   c9_construct_inverts_get_raw_parts _ _ _ (by exact ⟨by norm_num, by decide, by norm_num⟩)⟩

/-- C5, counterexample to the `0 < len` clause: a `poll_write` with an empty
caller buffer is accepted by the code and emits a record pair whose length
field encodes 0 — the wire below is the salt, the encrypted length record
for 0 (`beBytes2 0` plus tag) and an empty encrypted payload record (tag
only).  The call also returns 0 consumed bytes. -/
theorem c5_empty_write_emits_zero_record :
    recordLen [] = 0 ∧
    (TcpStream.pollWriteEncrypt modelAead (List.replicate 32 7)
      (TcpStream.new .chacha20Poly1305) []).1 = 0 ∧
    (TcpStream.pollWriteEncrypt modelAead (List.replicate 32 7)
      (TcpStream.new .chacha20Poly1305) []).2.1
      = List.replicate 32 7 ++ (beBytes2 0 ++ List.replicate 16 0)
          ++ List.replicate 16 0 := by
  refine ⟨rfl, rfl, ?_⟩
  decide

/-- C5, amended: for every `poll_write` call with a NON-EMPTY caller buffer
of length `n`, from either entry state (first call, which also emits the
salt, or a later call), the writer emits exactly one length record and one
payload record, carrying the first `min n 0x3FFF` caller bytes, returns
`min n 0x3FFF`, and the record length satisfies `0 < len ≤ 0x3FFF`.  The
original claim fails only at `n = 0`, where a zero-length record is emitted
(see the counterexample). -/
theorem c5_one_record_pair_per_write (A : Aead) (w : List Nat) (m : Method)
    (ds : Option (List Nat)) (en dn : List Nat) (isalt : Option (List Nat))
    (rs : RSt) (ip op p : List Nat) (hp : p ≠ []) :
    TcpStream.pollWriteEncrypt A w ⟨m, some w, ds, en, dn, isalt, rs, .writeLength, ip, op⟩ p
      = (recordLen p,
         (op ++ A.enc w en (beBytes2 (recordLen p)))
           ++ A.enc w (Nonce.increment en) (p.take (recordLen p)),
         ⟨m, some w, ds, Nonce.increment (Nonce.increment en), dn, isalt, rs,
           .writeLength, ip, []⟩) ∧
    TcpStream.pollWriteEncrypt A w ⟨m, none, ds, en, dn, isalt, rs, .writeSalt, ip, []⟩ p
      = (recordLen p,
         (w ++ A.enc w en (beBytes2 (recordLen p)))
           ++ A.enc w (Nonce.increment en) (p.take (recordLen p)),
         ⟨m, some w, ds, Nonce.increment (Nonce.increment en), dn, isalt, rs,
           .writeLength, ip, []⟩) ∧
    p.take (recordLen p) = p.take (min p.length MAXIMUM_PAYLOAD_SIZE) ∧
    0 < recordLen p ∧ recordLen p ≤ MAXIMUM_PAYLOAD_SIZE := by
  have hpos : 0 < p.length := List.length_pos.mpr hp
  have hM : 0 < MAXIMUM_PAYLOAD_SIZE := by norm_num [MAXIMUM_PAYLOAD_SIZE]
  refine ⟨rfl, rfl, rfl, ?_, ?_⟩
  · simp only [recordLen]
    omega
  · simp only [recordLen]
    omega

/-- C5 witness: the amended theorem at a concrete three-byte write from the
salted state. -/
theorem c5_write_witness :
    TcpStream.pollWriteEncrypt modelAead [9] ⟨.aes128Gcm, some [9], none,
        [0], [0], none, .readSalt, .writeLength, [], []⟩ [1, 2, 3]
      = (3, (([] : List Nat) ++ ([0, 3] ++ List.replicate 16 0))
          ++ ([1, 2, 3] ++ List.replicate 16 0),
         ⟨.aes128Gcm, some [9], none, [2], [0], none, .readSalt, .writeLength, [], []⟩) := by
  have h := (c5_one_record_pair_per_write modelAead [9] .aes128Gcm none [0] [0] none
    .readSalt [] [] [1, 2, 3] (by decide)).1
  rw [h]
  decide

/-- C6: for each direction the nonce starts as twelve zero bytes and after
`k` increments encodes `k mod 2^96` little-endian (add-one with carry); the
encrypt operation increments the encrypt nonce exactly once per call
(encryption by these AEADs is infallible) and leaves the decrypt nonce
alone; the decrypt operation increments the decrypt nonce exactly once on
success, leaves it unchanged on an AEAD failure, and never touches the
encrypt nonce. -/
theorem c6_nonce_monotonicity :
    (∀ (m : Method) (k : Nat),
       nonceVal (Nonce.increment^[k] (Nonce.new m.ivSize)) = k % 2 ^ 96) ∧
    (∀ (A : Aead) (s : TcpStream) (p : List Nat),
       ((TcpStream.encryptOp A s p).2).encNonce = Nonce.increment s.encNonce ∧
       ((TcpStream.encryptOp A s p).2).decNonce = s.decNonce) ∧
    (∀ (A : Aead) (s : TcpStream) (c : List Nat),
       (∀ d, (TcpStream.decryptOp A s c).1 = .ok d →
          ((TcpStream.decryptOp A s c).2).decNonce = Nonce.increment s.decNonce) ∧
       ((TcpStream.decryptOp A s c).1 = .error .decryption →
          ((TcpStream.decryptOp A s c).2).decNonce = s.decNonce) ∧
       ((TcpStream.decryptOp A s c).2).encNonce = s.encNonce) := by
  refine ⟨?_, ?_, ?_⟩
  · intro m k
    have h96 : (256 : Nat) ^ m.ivSize = 2 ^ 96 := by
      cases m <;> norm_num [Method.ivSize]
    rw [nonceVal_iterate m.ivSize k, h96]
  · intro A s p
    exact ⟨rfl, rfl⟩
  · intro A s c
    refine ⟨?_, ?_, ?_⟩
    · intro d hd
      simp only [TcpStream.decryptOp] at hd ⊢
      rcases hres : A.dec (s.decSalt.getD []) s.decNonce c with - | data
      · rw [hres] at hd
        simp at hd
      · rfl
    · intro hd
      simp only [TcpStream.decryptOp] at hd ⊢
      rcases hres : A.dec (s.decSalt.getD []) s.decNonce c with - | data
      · rfl
      · rw [hres] at hd
        simp at hd
    · simp only [TcpStream.decryptOp]
      rcases hres : A.dec (s.decSalt.getD []) s.decNonce c with - | data <;> rfl

/-- C6 witness: the theorem applied at concrete inputs — five increments of
the zero nonce encode 5, and a concrete successful decrypt advances the
decrypt nonce once. -/
theorem c6_nonce_witness :
    nonceVal (Nonce.increment^[5] (Nonce.new (Method.ivSize .aes128Gcm))) = 5 % 2 ^ 96 ∧
    ((TcpStream.decryptOp modelAead (TcpStream.new .aes256Gcm)
        (List.replicate 16 0)).2).decNonce
      = Nonce.increment (TcpStream.new .aes256Gcm).decNonce :=
  ⟨c6_nonce_monotonicity.1 .aes128Gcm 5,
   (c6_nonce_monotonicity.2.2 modelAead (TcpStream.new .aes256Gcm)
      (List.replicate 16 0)).1 [] (by decide)⟩

/-- C1: record atomicity.  A writer stream and a reader stream sharing the
same AEAD keyed by the same salt (the abstraction of `(method, master_key)`
plus the transmitted salt): whatever messages the writer sends with
`write_all`, and however the transport chunks the resulting wire bytes,
a long enough run of `poll_read` calls delivers plaintext whose
concatenation is exactly the concatenation of the written messages, in
order, with no error surfaced. -/
theorem c1_record_atomicity (m : Method) (A : Aead) (w : List Nat)
    (cr : List Nat → Bool) (ps : List (List Nat)) (t : Transport)
    (caps : List Nat) (hA : AeadGood m A w) (hw : w.length = m.saltSize)
    (hcr : cr w = true) (ht : chunksOK t)
    (hwire : t.flatten = (TcpStream.writeList A w (TcpStream.new m) ps).1)
    (hcaps : ∀ c ∈ caps, 1 ≤ c)
    (hn : ps.flatten.length + 1 ≤ caps.length) :
    (TcpStream.readAllTrace A cr caps (TcpStream.new m) t).err = none ∧
    (TcpStream.readAllTrace A cr caps (TcpStream.new m) t).outs.flatten
      = ps.flatten := by
  have hInv : ReaderInv m A w (TcpStream.new m) t ps.flatten := by
    refine ⟨rfl, ht, Or.inl ⟨recordsOf ps, recordsOf_good ps, rfl, rfl, rfl, rfl,
      ?_, (recordsOf_flatten ps).symm⟩⟩
    by_cases hfe : ps.flatten = []
    · have hre : recordsOf ps = [] := goodRecs_flatten_nil (recordsOf_good ps)
        (by rw [recordsOf_flatten]; exact hfe)
      have hwl := writeList_fresh_nil A w m none (Nonce.new m.ivSize) none
        .readSalt [] ps (Nonce.new m.ivSize) hfe
      rw [hwire, hre]
      rw [show TcpStream.new m = (⟨m, none, none, Nonce.new m.ivSize,
        Nonce.new m.ivSize, none, .readSalt, .writeSalt, [], []⟩ : TcpStream) from rfl]
      rw [hwl]
      rfl
    · have hre : recordsOf ps ≠ [] := by
        intro h
        apply hfe
        rw [← recordsOf_flatten ps, h]
        rfl
      have hwl := writeList_fresh A w m none (Nonce.new m.ivSize) none
        .readSalt [] ps (Nonce.new m.ivSize) hfe
      rw [hwire]
      rw [show TcpStream.new m = (⟨m, none, none, Nonce.new m.ivSize,
        Nonce.new m.ivSize, none, .readSalt, .writeSalt, [], []⟩ : TcpStream) from rfl]
      rw [hwl, if_neg (by simpa [List.isEmpty_iff] using hre)]
  obtain ⟨outs, hr, hf⟩ := reader_run m A w cr hA hw hcr caps
    (TcpStream.new m) t ps.flatten hInv hcaps hn
  rw [hr]
  exact ⟨rfl, hf⟩

/-- C1 witness: with the model AEAD, a 32-byte salt, messages `[7]` and
`[8, 9]` and four reads of capacity 2, the reader delivers `[7, 8, 9]`
without error. -/
theorem c1_atomicity_witness :
    (TcpStream.readAllTrace modelAead (fun _ => true) [2, 2, 2, 2]
        (TcpStream.new .chacha20Poly1305)
        [(TcpStream.writeList modelAead (List.replicate 32 1)
            (TcpStream.new .chacha20Poly1305) [[7], [8, 9]]).1]).err = none ∧
    (TcpStream.readAllTrace modelAead (fun _ => true) [2, 2, 2, 2]
        (TcpStream.new .chacha20Poly1305)
        [(TcpStream.writeList modelAead (List.replicate 32 1)
            (TcpStream.new .chacha20Poly1305) [[7], [8, 9]]).1]).outs.flatten
      = [7, 8, 9] := by
  have hw1 : (TcpStream.writeList modelAead (List.replicate 32 1)
      (TcpStream.new .chacha20Poly1305) [[7], [8, 9]]).1
      = List.replicate 32 1 ++ encodeRecords modelAead (List.replicate 32 1)
          (Nonce.new 12) (recordsOf [[7], [8, 9]]) := by
    rw [show TcpStream.new Method.chacha20Poly1305
      = (⟨.chacha20Poly1305, none, none, Nonce.new 12, Nonce.new 12, none,
          .readSalt, .writeSalt, [], []⟩ : TcpStream) from rfl]
    rw [writeList_fresh modelAead (List.replicate 32 1) .chacha20Poly1305 none
      (Nonce.new 12) none .readSalt [] [[7], [8, 9]] (Nonce.new 12) (by decide)]
  have h := c1_record_atomicity .chacha20Poly1305 modelAead (List.replicate 32 1)
    (fun _ => true) [[7], [8, 9]]
    [(TcpStream.writeList modelAead (List.replicate 32 1)
        (TcpStream.new .chacha20Poly1305) [[7], [8, 9]]).1]
    [2, 2, 2, 2] (modelAead_good _ _) (by decide) rfl
    (by
      intro c hc
      simp only [List.mem_singleton] at hc
      subst hc
      rw [hw1]
      simp)
    (by simp) (by decide) (by decide)
  simpa using h

/-- C2: replay-set consultation.  On a connection whose peer actually sent
data, the reader consults the replay set with the incoming salt exactly
once over the whole run of `poll_read` calls — on the call that processes
the first length record, after the salt is read in full; it is never
skipped and never repeated on later records.  If the set reports a
duplicate, the very first read fails with `DuplicateSalt`, the single
consultation has still happened, and no plaintext is ever delivered. -/
theorem c2_replay_consulted_exactly_once (m : Method) (A : Aead) (w : List Nat)
    (cr : List Nat → Bool) (ps : List (List Nat)) (t : Transport)
    (caps : List Nat) (hA : AeadGood m A w) (hw : w.length = m.saltSize)
    (ht : chunksOK t)
    (hwire : t.flatten = (TcpStream.writeList A w (TcpStream.new m) ps).1)
    (hcaps : ∀ c ∈ caps, 1 ≤ c)
    (hn : ps.flatten.length + 1 ≤ caps.length)
    (hne : ps.flatten ≠ []) :
    (cr w = true →
       (TcpStream.readAllTrace A cr caps (TcpStream.new m) t).consults = [w] ∧
       (TcpStream.readAllTrace A cr caps (TcpStream.new m) t).err = none) ∧
    (cr w = false →
       TcpStream.readAllTrace A cr caps (TcpStream.new m) t
         = ⟨[], [w], some .duplicateSalt⟩) := by
  have hrne : recordsOf ps ≠ [] := by
    intro h
    apply hne
    rw [← recordsOf_flatten ps, h]
    rfl
  have hw1 : (TcpStream.writeList A w (TcpStream.new m) ps).1
      = w ++ encodeRecords A w (Nonce.new m.ivSize) (recordsOf ps) := by
    rw [show TcpStream.new m = (⟨m, none, none, Nonce.new m.ivSize,
      Nonce.new m.ivSize, none, .readSalt, .writeSalt, [], []⟩ : TcpStream) from rfl]
    rw [writeList_fresh A w m none (Nonce.new m.ivSize) none
      .readSalt [] ps (Nonce.new m.ivSize) hne]
  constructor
  · intro hcr
    have hInv : ReaderInv m A w (TcpStream.new m) t ps.flatten := by
      refine ⟨rfl, ht, Or.inl ⟨recordsOf ps, recordsOf_good ps, rfl, rfl, rfl, rfl,
        ?_, (recordsOf_flatten ps).symm⟩⟩
      rw [hwire, hw1, if_neg (by simpa [List.isEmpty_iff] using hrne)]
    obtain ⟨outs, hr, -⟩ := reader_run m A w cr hA hw hcr caps
      (TcpStream.new m) t ps.flatten hInv hcaps hn
    rw [hr]
    exact ⟨by simp [hne, TcpStream.new], rfl⟩
  · intro hcr
    rcases caps with - | ⟨cap, caps2⟩
    · simp only [List.length_nil] at hn
      omega
    rcases hrec : recordsOf ps with - | ⟨q, qs⟩
    · exact absurd hrec hrne
    have hq : q.length ≤ MAXIMUM_PAYLOAD_SIZE :=
      ((recordsOf_good ps) q (by rw [hrec]; simp)).2
    exact reader_dup m A w cr hA hw hcr cap caps2 t ht q qs hq
      (by rw [hwire, hw1, hrec])

/-- C2 witness: with the model AEAD, a 32-byte salt and one message
`[5, 6]`, a replay set answering fresh yields consultation list `[salt]`
and no error; a replay set answering duplicate yields the trace with no
output, the single consultation, and the `DuplicateSalt` error. -/
theorem c2_replay_witness :
    ((TcpStream.readAllTrace modelAead (fun _ => true) [2, 2, 2]
        (TcpStream.new .aes256Gcm)
        [(TcpStream.writeList modelAead (List.replicate 32 2)
            (TcpStream.new .aes256Gcm) [[5, 6]]).1]).consults
      = [List.replicate 32 2]) ∧
    (TcpStream.readAllTrace modelAead (fun _ => false) [2, 2, 2]
        (TcpStream.new .aes256Gcm)
        [(TcpStream.writeList modelAead (List.replicate 32 2)
            (TcpStream.new .aes256Gcm) [[5, 6]]).1]
      = ⟨[], [List.replicate 32 2], some .duplicateSalt⟩) := by
  have hw1 : (TcpStream.writeList modelAead (List.replicate 32 2)
      (TcpStream.new .aes256Gcm) [[5, 6]]).1
      = List.replicate 32 2 ++ encodeRecords modelAead (List.replicate 32 2)
          (Nonce.new 12) (recordsOf [[5, 6]]) := by
    rw [show TcpStream.new Method.aes256Gcm
      = (⟨.aes256Gcm, none, none, Nonce.new 12, Nonce.new 12, none,
          .readSalt, .writeSalt, [], []⟩ : TcpStream) from rfl]
    rw [writeList_fresh modelAead (List.replicate 32 2) .aes256Gcm none
      (Nonce.new 12) none .readSalt [] [[5, 6]] (Nonce.new 12) (by decide)]
  have hchunks : chunksOK [(TcpStream.writeList modelAead (List.replicate 32 2)
      (TcpStream.new .aes256Gcm) [[5, 6]]).1] := by
    intro c hc
    simp only [List.mem_singleton] at hc
    subst hc
    rw [hw1]
    simp
  constructor
  · exact ((c2_replay_consulted_exactly_once .aes256Gcm modelAead
      (List.replicate 32 2) (fun _ => true) [[5, 6]] _ [2, 2, 2]
      (modelAead_good _ _) (by decide) hchunks (by simp) (by decide) (by decide)
      (by decide)).1 rfl).1
  · exact (c2_replay_consulted_exactly_once .aes256Gcm modelAead
      (List.replicate 32 2) (fun _ => false) [[5, 6]] _ [2, 2, 2]
      (modelAead_good _ _) (by decide) hchunks (by simp) (by decide) (by decide)
      (by decide)).2 rfl

/-- C4 counterexample: a transport carrying the 32-byte salt plus only 3
of the 18 bytes of the first length record — an EOF strictly mid-record,
with partial bytes consumed.  The inner machinery does raise
`UnexpectedEof`, but `poll_read_decrypt_helper` swallows it and the read
reports a successful zero-byte end-of-stream, not the fatal error the
claim requires. -/
theorem c4_mid_record_eof_reported_clean :
    TcpStream.pollReadDecrypt modelAead (fun _ => true) 4
        (TcpStream.new .chacha20Poly1305) [List.replicate 32 0 ++ [1, 2, 3]]
      = ([], .error .unexpectedEof) ∧
    TcpStream.pollReadHelper modelAead (fun _ => true) 4
        (TcpStream.new .chacha20Poly1305) [List.replicate 32 0 ++ [1, 2, 3]]
      = ([], .ok ([], TcpStream.new .chacha20Poly1305,
          [List.replicate 32 0 ++ [1, 2, 3]])) := by
  have ht : chunksOK [List.replicate 32 0 ++ [1, 2, 3]] := by
    intro c hc
    simp only [List.mem_singleton] at hc
    subst hc
    simp
  obtain ⟨t1, hsalt, hok1, hflat1⟩ := pollReadSalt_fresh .chacha20Poly1305 none
    (Nonce.new 12) (Nonce.new 12) none .readSalt .writeSalt [] []
    [List.replicate 32 0 ++ [1, 2, 3]] (List.replicate 32 0) [1, 2, 3]
    ht (by simp) (by decide)
  have hre : readExact (2 + Method.tagSize .chacha20Poly1305) t1 = none := by
    apply readExact_eof _ t1 hok1
    rw [hflat1]
    decide
  have hdecr : TcpStream.pollReadDecrypt modelAead (fun _ => true) 4
      (TcpStream.new .chacha20Poly1305) [List.replicate 32 0 ++ [1, 2, 3]]
      = ([], .error .unexpectedEof) := by
    rw [show TcpStream.new Method.chacha20Poly1305
      = (⟨.chacha20Poly1305, none, none, Nonce.new 12, Nonce.new 12, none,
          .readSalt, .writeSalt, [], []⟩ : TcpStream) from rfl]
    simp only [TcpStream.pollReadDecrypt, hsalt]
    simp only [TcpStream.runFromLength, TcpStream.pollReadLength]
    rw [hre]
  exact ⟨hdecr, pollReadHelper_of_eof hdecr⟩

/-- C4 (amended): on an encrypted stream, EOF at a record boundary is
reported as a successful zero-byte read; but EOF mid-record is reported
the same way: the helper maps every `UnexpectedEof` raised by the reading
machinery to a clean end-of-stream, so no `poll_read` on an encrypted
stream ever surfaces `UnexpectedEof`. -/
theorem c4_eof_never_fatal (A : Aead) (cr : List Nat → Bool) (cap : Nat)
    (s : TcpStream) (t : Transport) :
    (∀ cs, TcpStream.pollReadHelper A cr cap s t ≠ (cs, .error .unexpectedEof)) ∧
    (∀ cs, TcpStream.pollReadDecrypt A cr cap s t = (cs, .error .unexpectedEof) →
       TcpStream.pollReadHelper A cr cap s t = (cs, .ok ([], s, t))) ∧
    (s.readState = .readLength →
       TcpStream.pollReadHelper A cr cap s [] = ([], .ok ([], s, []))) := by
  refine ⟨?_, ?_, ?_⟩
  · intro cs
    rcases hd : TcpStream.pollReadDecrypt A cr cap s t with ⟨cs2, r⟩
    rcases r with e | x
    · rcases e with - | - | - | -
      · rw [pollReadHelper_of_err (by simp) hd]
        simp
      · rw [pollReadHelper_of_err (by simp) hd]
        simp
      · rw [pollReadHelper_of_err (by simp) hd]
        simp
      · rw [pollReadHelper_of_eof hd]
        simp
    · rw [pollReadHelper_of_ok hd]
      simp
  · intro cs hd
    exact pollReadHelper_of_eof hd
  · intro hrs
    apply pollReadHelper_of_eof
    simp only [TcpStream.pollReadDecrypt, hrs]
    exact runFromLength_nil A cr cap s

/-- C4 witness: a stream parked between records (`ReadLength`) whose
transport is exhausted reports a clean zero-byte end-of-stream. -/
theorem c4_eof_witness :
    TcpStream.pollReadHelper modelAead (fun _ => true) 4
        ({TcpStream.new .chacha20Poly1305 with readState := .readLength}) []
      = ([], .ok ([],
          {TcpStream.new .chacha20Poly1305 with readState := .readLength}, [])) :=
  (c4_eof_never_fatal modelAead (fun _ => true) 4
    {TcpStream.new .chacha20Poly1305 with readState := .readLength} []).2.2 rfl

end SsRs
